import Mathlib

/-!
Verification of the CMap codec and controlled-randomization engine of the
scramble-pdf repository (`scramblepdf/__init__.py`).

Text is modelled as `List Char` (Python `str`), raw stream bytes as
`List Nat` (Python `bytes`).  Pure functions of the source are translated
to Lean functions; the in-place mutation of the PDF object and of the
`font_mappings` cache is translated to explicit state passing; the ambient
randomness of `random.shuffle` is translated to an oracle parameter
(`List String` permutation function indexed by a call counter), with
theorems quantifying over all oracles producing permutations.
-/

set_option maxRecDepth 100000

/-- Python `str` is modelled as a list of characters. -/
abbrev Str := List Char

/-- The characters matched by the regex class `\s` (Python `re`, Unicode
default for `str` patterns). -/
def pySpace (c : Char) : Bool :=
  let v := c.toNat
  (9 ≤ v && v ≤ 13) || v == 32 || (28 ≤ v && v ≤ 31) || v == 0x85 || v == 0xA0 ||
  v == 0x1680 || (0x2000 ≤ v && v ≤ 0x200A) || v == 0x2028 || v == 0x2029 ||
  v == 0x202F || v == 0x205F || v == 0x3000

/-- The characters matched by the regex class `[0-9A-Fa-f]`. -/
def isHexChar (c : Char) : Bool :=
  ('0' ≤ c && c ≤ '9') || ('A' ≤ c && c ≤ 'F') || ('a' ≤ c && c ≤ 'f')

/-- Value of a single hexadecimal digit (as used by Python `int(s, 16)`). -/
def hexDigitVal (c : Char) : Nat :=
  if '0' ≤ c ∧ c ≤ '9' then c.toNat - 48
  else if 'A' ≤ c ∧ c ≤ 'F' then c.toNat - 55
  else if 'a' ≤ c ∧ c ≤ 'f' then c.toNat - 87
  else 0

/-- Python `int(s, 16)` on a string of hexadecimal digits. -/
def hexVal (s : Str) : Nat := s.foldl (fun a c => a * 16 + hexDigitVal c) 0

/-- Python `str.upper()` (ASCII part, which is all the hex codes use). -/
def pyUpper (s : Str) : Str := s.map Char.toUpper

/-- The decimal digit characters. -/
def digitChar (d : Nat) : Char :=
  match d with
  | 0 => '0' | 1 => '1' | 2 => '2' | 3 => '3' | 4 => '4'
  | 5 => '5' | 6 => '6' | 7 => '7' | 8 => '8' | _ => '9'

/-- Helper for `natStr`: fuelled decimal rendering. -/
def natStrGo : Nat → Nat → Str → Str
  | 0, _, acc => acc
  | fuel + 1, n, acc =>
    if n < 10 then digitChar n :: acc
    else natStrGo fuel (n / 10) (digitChar (n % 10) :: acc)

/-- Python `f"{n}"`: decimal rendering of a natural number. -/
def natStr (n : Nat) : Str := natStrGo (n + 1) n []

-- sanity checks of the text primitives
example : natStr 105 = "105".data := by decide
example : hexVal "41".data = 65 := by decide
example : pyUpper "4e2d".data = "4E2D".data := by decide
example : isHexChar 'g' = false := by decide

theorem natStrGo_chars (fuel n : Nat) (acc : Str) :
    ∀ c ∈ natStrGo fuel n acc, (∃ d, d < 10 ∧ c = digitChar d) ∨ c ∈ acc := by
  induction fuel generalizing n acc with
  | zero => intro c hc; exact Or.inr hc
  | succ fuel ih =>
    intro c hc
    unfold natStrGo at hc
    split at hc
    · rcases List.mem_cons.mp hc with h | h
      · exact Or.inl ⟨n, by omega, h⟩
      · exact Or.inr h
    · rcases ih (n / 10) (digitChar (n % 10) :: acc) c hc with h | h
      · exact Or.inl h
      · rcases List.mem_cons.mp h with h | h
        · exact Or.inl ⟨n % 10, Nat.mod_lt _ (by omega), h⟩
        · exact Or.inr h

theorem natStr_chars (n : Nat) : ∀ c ∈ natStr n, ∃ d, d < 10 ∧ c = digitChar d := by
  intro c hc
  rcases natStrGo_chars (n + 1) n [] c hc with h | h
  · exact h
  · simp at h

theorem digitChar_lt (d : Nat) : (digitChar d).toNat < 128 := by
  unfold digitChar
  split <;> decide

theorem digitChar_ne_b (d : Nat) : digitChar d ≠ 'b' := by
  unfold digitChar; split <;> decide

theorem digitChar_ne_e (d : Nat) : digitChar d ≠ 'e' := by
  unfold digitChar; split <;> decide

theorem digitChar_ne_lt (d : Nat) : digitChar d ≠ '<' := by
  unfold digitChar; split <;> decide

/-! ### The shuffle cutoff

`scramble_pdf` computes `cutoff = ceil(len(dsts)*(1-ratio))` (Python
`math.ceil` on a real); the ratio is modelled as a rational. -/

def cutoff (n : Nat) (ratio : ℚ) : Nat := ⌈(n : ℚ) * (1 - ratio)⌉₊

example : cutoff 4 (1/2) = 2 := by with_unfolding_all decide
example : cutoff 4 0 = 4 := by with_unfolding_all decide
example : cutoff 4 1 = 0 := by with_unfolding_all decide
example : cutoff 5 (1/3) = 4 := by with_unfolding_all decide

/-! ### UTF-8 codec

Models Python `bytes.decode('utf-8', errors='ignore')` (invalid byte
sequences are skipped, never raising) and `str.encode('utf-8')`. -/

/-- Validity of the middle byte of a three-byte sequence, which depends on
the lead byte (rejecting overlong encodings and surrogates). -/
def utf8Mid3Ok (b b1 : Nat) : Bool :=
  if b == 0xE0 then 0xA0 ≤ b1 && b1 ≤ 0xBF
  else if b == 0xED then 0x80 ≤ b1 && b1 ≤ 0x9F
  else 0x80 ≤ b1 && b1 ≤ 0xBF

/-- Validity of the second byte of a four-byte sequence. -/
def utf8Mid4Ok (b b1 : Nat) : Bool :=
  if b == 0xF0 then 0x90 ≤ b1 && b1 ≤ 0xBF
  else if b == 0xF4 then 0x80 ≤ b1 && b1 ≤ 0x8F
  else 0x80 ≤ b1 && b1 ≤ 0xBF

def utf8Cont (b : Nat) : Bool := 0x80 ≤ b && b ≤ 0xBF

/-- One step of the UTF-8 decoder: given the current byte and the rest,
return the decoded character (if the current byte starts a valid sequence)
and the bytes still to process.  Bytes of a rejected sequence are fed back
byte by byte; since continuation bytes are themselves invalid lead bytes,
this yields the same decoded text as skipping the whole bad sequence. -/
def utf8Step (b : Nat) (rest : List Nat) : Option Char × List Nat :=
  if b < 0x80 then (some (Char.ofNat b), rest)
  else if 0xC2 ≤ b && b ≤ 0xDF then
    match rest with
    | b1 :: rest1 =>
      if utf8Cont b1 then (some (Char.ofNat ((b - 0xC0) * 0x40 + (b1 - 0x80))), rest1)
      else (none, b1 :: rest1)
    | [] => (none, [])
  else if 0xE0 ≤ b && b ≤ 0xEF then
    match rest with
    | b1 :: b2 :: rest2 =>
      if utf8Mid3Ok b b1 && utf8Cont b2 then
        (some (Char.ofNat ((b - 0xE0) * 0x1000 + (b1 - 0x80) * 0x40 + (b2 - 0x80))), rest2)
      else (none, rest)
    | _ => (none, rest)
  else if 0xF0 ≤ b && b ≤ 0xF4 then
    match rest with
    | b1 :: b2 :: b3 :: rest3 =>
      if utf8Mid4Ok b b1 && utf8Cont b2 && utf8Cont b3 then
        (some (Char.ofNat ((b - 0xF0) * 0x40000 + (b1 - 0x80) * 0x1000 +
            (b2 - 0x80) * 0x40 + (b3 - 0x80))), rest3)
      else (none, rest)
    | _ => (none, rest)
  else (none, rest)

/-- Fuelled decoding loop; each step consumes at least one byte, so fuel
equal to the byte count always suffices. -/
def decodeGo : Nat → List Nat → List Char
  | 0, _ => []
  | _ + 1, [] => []
  | fuel + 1, b :: rest =>
    match utf8Step b rest with
    | (some c, rest1) => c :: decodeGo fuel rest1
    | (none, rest1) => decodeGo fuel rest1

/-- `bytes.decode('utf-8', errors='ignore')`: total over arbitrary byte
lists, skipping undecodable bytes. -/
def decodeUtf8Ignore (bs : List Nat) : List Char := decodeGo bs.length bs

/-- `str.encode('utf-8')` for one character. -/
def encodeChar (c : Char) : List Nat :=
  if c.toNat < 0x80 then [c.toNat]
  else if c.toNat < 0x800 then [0xC0 + c.toNat / 0x40, 0x80 + c.toNat % 0x40]
  else if c.toNat < 0x10000 then
    [0xE0 + c.toNat / 0x1000, 0x80 + (c.toNat / 0x40) % 0x40, 0x80 + c.toNat % 0x40]
  else
    [0xF0 + c.toNat / 0x40000, 0x80 + (c.toNat / 0x1000) % 0x40,
     0x80 + (c.toNat / 0x40) % 0x40, 0x80 + c.toNat % 0x40]

/-- `str.encode('utf-8')`. -/
def encodeUtf8 (s : Str) : List Nat := (s.map encodeChar).flatten

example : decodeUtf8Ignore (encodeUtf8 "a<阳>\n".data) = "a<阳>\n".data := by decide
example : decodeUtf8Ignore [0xFF, 0x61, 0xC2] = ['a'] := by decide
example : decodeUtf8Ignore [0xE0, 0xA0, 0x41] = ['A'] := by decide

theorem utf8Step_ascii (b : Nat) (rest : List Nat) (hb : b < 0x80) :
    utf8Step b rest = (some (Char.ofNat b), rest) := by
  unfold utf8Step
  rw [if_pos hb]

/-- If all characters are ASCII, encoding then decoding is the identity,
for any sufficient fuel. -/
theorem decodeGo_encode_ascii (s : Str) (fuel : Nat) (h : ∀ c ∈ s, c.toNat < 0x80)
    (hfuel : (encodeUtf8 s).length ≤ fuel) :
    decodeGo fuel (encodeUtf8 s) = s := by
  induction s generalizing fuel with
  | nil =>
    have : encodeUtf8 [] = [] := rfl
    rw [this]
    cases fuel <;> rfl
  | cons c rest ih =>
    have hc : c.toNat < 0x80 := h c (List.mem_cons_self c rest)
    have henc : encodeChar c = [c.toNat] := by
      unfold encodeChar
      rw [if_pos hc]
    have hstep : encodeUtf8 (c :: rest) = c.toNat :: encodeUtf8 rest := by
      simp [encodeUtf8, henc]
    rw [hstep] at hfuel ⊢
    simp only [List.length_cons] at hfuel
    cases fuel with
    | zero => omega
    | succ fuel =>
      rw [decodeGo, utf8Step_ascii _ _ hc, Char.ofNat_toNat]
      show c :: decodeGo fuel (encodeUtf8 rest) = c :: rest
      rw [ih fuel (fun c hc => h c (List.mem_cons_of_mem _ hc)) (by omega)]

theorem decodeUtf8_encode_ascii (s : Str) (h : ∀ c ∈ s, c.toNat < 0x80) :
    decodeUtf8Ignore (encodeUtf8 s) = s :=
  decodeGo_encode_ascii s _ h le_rfl

/-! ### The CMap parser

`parse_cmap` first locates the block between the first `beginbfchar` and
the first following `endcmap` (the lazy-group regex
`beginbfchar\s*(.*?)\s*endcmap` with DOTALL strips the surrounding
whitespace); if there is no such block it scans the whole text.  It then
extracts every `<hex>\s+<hex>` token pair in order. -/

/-- Split a list at the first occurrence of the pattern `pat`, returning
the part before and the part after the occurrence. -/
def splitOnSublist (pat : Str) : Str → Option (Str × Str)
  | [] => if pat = [] then some ([], []) else none
  | c :: t =>
    if pat.isPrefixOf (c :: t) then some ([], (c :: t).drop pat.length)
    else
      match splitOnSublist pat t with
      | some (pre, post) => some (c :: pre, post)
      | none => none

/-- One attempt to match the regex `<([0-9A-Fa-f]+)>\s+<([0-9A-Fa-f]+)>`
at the head of the text; on success returns the two groups and the
remaining text. -/
def matchPair (l : Str) : Option ((Str × Str) × Str) :=
  match l with
  | [] => none
  | c :: t =>
    if c ≠ '<' then none
    else
      let h1 := t.takeWhile isHexChar
      match t.dropWhile isHexChar with
      | [] => none
      | c1 :: t2 =>
        if h1 = [] ∨ c1 ≠ '>' then none
        else
          let w := t2.takeWhile pySpace
          match t2.dropWhile pySpace with
          | [] => none
          | c2 :: t4 =>
            if w = [] ∨ c2 ≠ '<' then none
            else
              let h2 := t4.takeWhile isHexChar
              match t4.dropWhile isHexChar with
              | [] => none
              | c3 :: t6 =>
                if h2 = [] ∨ c3 ≠ '>' then none
                else some ((h1, h2), t6)

/-- Fuelled scanning loop of `re.findall`: try a match at every position,
non-overlapping, left to right. -/
def findPairsGo : Nat → Str → List (Str × Str)
  | 0, _ => []
  | _ + 1, [] => []
  | fuel + 1, c :: t =>
    match matchPair (c :: t) with
    | some (p, rest) => p :: findPairsGo fuel rest
    | none => findPairsGo fuel t

/-- `re.findall(r"<([0-9A-Fa-f]+)>\s+<([0-9A-Fa-f]+)>", content)`. -/
def findPairs (l : Str) : List (Str × Str) := findPairsGo l.length l

/-- Strip leading and trailing regex whitespace (the effect of the greedy
`\s*` before the lazy group and of the lazy group ending at `\s*endcmap`). -/
def stripWs (l : Str) : Str :=
  ((l.dropWhile pySpace).reverse.dropWhile pySpace).reverse

def bfcharPat : Str := "beginbfchar".data
def endcmapPat : Str := "endcmap".data

/-- `parse_cmap` on decoded text: the regex search
`beginbfchar\s*(.*?)\s*endcmap` (DOTALL) finds, at the first
`beginbfchar` admitting a later `endcmap`, the shortest group; its effect
is to take the text between the first `beginbfchar` and the next
`endcmap` with surrounding whitespace stripped.  Without a match the
whole text is scanned. -/
def parseCmapChars (text : Str) : List (Str × Str) :=
  let content :=
    match splitOnSublist bfcharPat text with
    | none => text
    | some (_, after1) =>
      match splitOnSublist endcmapPat after1 with
      | none => text
      | some (before, _) => stripWs before
  findPairs content

/-- `parse_cmap(cmap_bytes)`. -/
def parse_cmap (cmap_bytes : List Nat) : List (Str × Str) :=
  parseCmapChars (decodeUtf8Ignore cmap_bytes)

-- the repository's own parser unit test:
-- parse_cmap(b"beginbfchar\n<0000> <0020>\n<0001> <0021>\nendcmap")
example :
    parse_cmap (encodeUtf8 "beginbfchar\n<0000> <0020>\n<0001> <0021>\nendcmap".data) =
    [("0000".data, "0020".data), ("0001".data, "0021".data)] := by decide

example : parseCmapChars "<01> <41> stray".data = [("01".data, "41".data)] := by decide
example : parseCmapChars "nothing here".data = [] := by decide

/-! ### The CMap builder (`build_cmap`) -/

/-- Python `"\n".join(lines)`. -/
def joinLines : List Str → Str
  | [] => []
  | [l] => l
  | l :: l' :: ls => l ++ '\n' :: joinLines (l' :: ls)

/-- The fixed part of the header, up to the `<` that opens the codespace
range line. -/
def cmapHeaderFixed : Str :=
  ("%!PS-Adobe-3.0 Resource-CMap\n" ++
   "%%DocumentNeededResources: procset CIDInit\n" ++
   "%%IncludeResource: procset CIDInit\n" ++
   "%%BeginResource: CMap Custom\n" ++
   "%%Title: (Custom Adobe Identity 0)\n" ++
   "%%Version: 1\n" ++
   "%%EndComments\n" ++
   "/CIDInit /ProcSet findresource begin\n" ++
   "12 dict begin\n" ++
   "begincmap\n" ++
   "/CIDSystemInfo 3 dict dup begin\n" ++
   "    /Registry (Adobe) def\n" ++
   "    /Ordering (Identity) def\n" ++
   "    /Supplement 0 def\n" ++
   "end def\n" ++
   "/CMapName /Custom def\n" ++
   "/CMapVersion 1 def\n" ++
   "/CMapType 0 def\n" ++
   "/WMode 0 def\n" ++
   "1 begincodespacerange\n<").data

/-- The line `<{src}> <{dst}>` of one entry. -/
def entryLine (e : Str × Str) : Str := '<' :: e.1 ++ '>' :: ' ' :: '<' :: e.2 ++ ['>']

/-- The entry lines of the `beginbfchar` section, with the block-splitting
of the source loop: before entry `i` (`i > 0`, `i % 100 == 0`,
`i != n - 1`) the current block is closed and a new one is opened. -/
def buildEntryLines (n : Nat) : Nat → List (Str × Str) → List Str
  | _, [] => []
  | i, e :: rest =>
    (if i ≠ 0 ∧ i % 100 = 0 ∧ i ≠ n - 1 then
      ["endbfchar".data, natStr (min 100 (n - i)) ++ ' ' :: bfcharPat]
    else []) ++ entryLine e :: buildEntryLines n (i + 1) rest

def cmapFooterLines : List Str :=
  ["endbfchar".data, "endcmap".data,
   "CMapName currentdict /CMap defineresource pop".data,
   "end".data, "end".data, "%%EndResource".data, "%%EOF".data]

/-- The line list built by `build_cmap` before joining.  (`max_len` is the
Python `max(len(src) for src in mapping)`; the Lean rendering folds `max`
over the lengths, and is only ever applied to non-empty tables, on which
the two agree.) -/
def build_cmap_lines (mapping : List (Str × Str)) : List Str :=
  let maxLen := (mapping.map (fun e => e.1.length)).foldl max 0
  let byteLen := maxLen / 2
  (cmapHeaderFixed ++ List.replicate (2 * byteLen) '0' ++ "> <".data ++
     List.replicate (2 * byteLen) 'F' ++ ">\nendcodespacerange".data) ::
  (natStr (min 100 mapping.length) ++ ' ' :: bfcharPat) ::
  (buildEntryLines mapping.length 0 mapping ++ cmapFooterLines)

/-- `build_cmap(mapping)`: the CMap text. -/
def build_cmap (mapping : List (Str × Str)) : Str := joinLines (build_cmap_lines mapping)

-- the repository's own builder unit test: counts and entry lines appear
set_option maxRecDepth 10000 in
example :
    build_cmap [("0000".data, "0020".data), ("0001".data, "0021".data)] =
    ("%!PS-Adobe-3.0 Resource-CMap\n" ++
     "%%DocumentNeededResources: procset CIDInit\n" ++
     "%%IncludeResource: procset CIDInit\n" ++
     "%%BeginResource: CMap Custom\n" ++
     "%%Title: (Custom Adobe Identity 0)\n" ++
     "%%Version: 1\n" ++
     "%%EndComments\n" ++
     "/CIDInit /ProcSet findresource begin\n" ++
     "12 dict begin\n" ++
     "begincmap\n" ++
     "/CIDSystemInfo 3 dict dup begin\n" ++
     "    /Registry (Adobe) def\n" ++
     "    /Ordering (Identity) def\n" ++
     "    /Supplement 0 def\n" ++
     "end def\n" ++
     "/CMapName /Custom def\n" ++
     "/CMapVersion 1 def\n" ++
     "/CMapType 0 def\n" ++
     "/WMode 0 def\n" ++
     "1 begincodespacerange\n" ++
     "<0000> <FFFF>\n" ++
     "endcodespacerange\n" ++
     "2 beginbfchar\n" ++
     "<0000> <0020>\n" ++
     "<0001> <0021>\n" ++
     "endbfchar\n" ++
     "endcmap\n" ++
     "CMapName currentdict /CMap defineresource pop\n" ++
     "end\n" ++
     "end\n" ++
     "%%EndResource\n" ++
     "%%EOF").data := by decide

/-! ### Classification (`UNICODE_REGIONS` and the partition loop) -/

/-- `in_ranges(codepoint, ranges)`. -/
def in_ranges (codepoint : Nat) (ranges : List (Nat × Nat)) : Bool :=
  ranges.any fun r => r.1 ≤ codepoint && codepoint ≤ r.2

/-- `UNICODE_REGIONS["Custom Selection"]["ranges"]`. -/
def customRanges : List (Nat × Nat) :=
  [(0x49, 0x49), (0x30, 0x39), (0x56FE, 0x56FE), (0x8868, 0x8868),
   (0x5C71, 0x5C71), (0x4E1C, 0x4E1C), (0x5927, 0x5927), (0x5B66, 0x5B66),
   (0x672C, 0x672C), (0x79D1, 0x79D1), (0x6BD5, 0x6BD5), (0x4E1A, 0x4E1A),
   (0x8BBA, 0x8BBA), (0x6587, 0x6587), (0x8BBE, 0x8BBE), (0x8BA1, 0x8BA1)]

/-- `UNICODE_REGIONS["Custom Selection"]["scramble"]`. -/
def customScramble : Bool := false

/-- The other regions of `UNICODE_REGIONS` in iteration order, as
(scramble flag, ranges): ASCII non-punctuation, CJK characters,
CJK symbols, ASCII punctuation. -/
def otherRegions : List (Bool × List (Nat × Nat)) :=
  [(true, [(0x41, 0x5A), (0x61, 0x7A), (0x30, 0x39)]),
   (true, [(0x4E00, 0x9FFF)]),
   (false, [(0x3000, 0x303F), (0xFF00, 0xFFEF)]),
   (false, [(0x21, 0x2F), (0x3A, 0x40), (0x5B, 0x60), (0x7B, 0x7E)])]

/-- The classification of one entry's destination code by the loop body of
`scramble_pdf` (lines 161-185): `true` means the entry goes to
`to_scramble`, `false` to `to_keep`.  The exclusion set is consulted
first, then the custom ranges, then the remaining regions (a hit on a
scramble region sends the entry to `to_scramble`). -/
def isScrambleEntry (exclude_set : List Str) (dst : Str) : Bool :=
  let dst_hex := pyUpper dst
  if dst_hex ∈ exclude_set then false
  else
    let code := hexVal dst_hex
    if in_ranges code customRanges then customScramble
    else otherRegions.any fun region => region.1 && in_ranges code region.2

example : isScrambleEntry [] "41".data = true := by decide   -- 'A': scrambled
example : isScrambleEntry [] "49".data = false := by decide  -- 'I': custom, kept
example : isScrambleEntry [] "21".data = false := by decide  -- '!': punctuation
example : isScrambleEntry [] "4E2D".data = true := by decide -- CJK: scrambled
example : isScrambleEntry ["41".data] "41".data = false := by decide

/-! ### Python dict model (insertion-ordered association list) -/

/-- `d[k] = v`: assign in place if the key exists, else append. -/
def dictInsert {α : Type} (k : Str) (v : α) : List (Str × α) → List (Str × α)
  | [] => [(k, v)]
  | (k', v') :: rest =>
    if k' = k then (k, v) :: rest else (k', v') :: dictInsert k v rest

/-- `d.get(k)` / `k in d`. -/
def dictGet {α : Type} (k : Str) : List (Str × α) → Option α
  | [] => none
  | (k', v) :: rest => if k' = k then some v else dictGet k rest

/-- A dict comprehension `{k: v for (k, v) in items}`. -/
def pyDict (items : List (Str × Str)) : List (Str × Str) :=
  items.foldl (fun d e => dictInsert e.1 e.2 d) []

/-- `d.update(items)`. -/
def pyUpdate (d : List (Str × Str)) (items : List (Str × Str)) : List (Str × Str) :=
  items.foldl (fun d e => dictInsert e.1 e.2 d) d

/-! ### The scramble step (`scramble_pdf` lines 159-199) -/

/-- `to_scramble`: the eligible entries, in original order. -/
def eligiblePart (exclude_set : List Str) (entries : List (Str × Str)) :
    List (Str × Str) :=
  entries.filter fun e => isScrambleEntry exclude_set e.2

/-- `to_keep`: the protected entries, in original order. -/
def keptPart (exclude_set : List Str) (entries : List (Str × Str)) :
    List (Str × Str) :=
  entries.filter fun e => !isScrambleEntry exclude_set e.2

/-- `new_dsts = fixed + shuffled` (lines 191-195), with the result of
`random.shuffle` passed in as `shuffled`. -/
def scrambleDsts (ratio : ℚ) (dsts shuffled : List Str) : List Str :=
  dsts.take (cutoff dsts.length ratio) ++ shuffled

/-- The `(shuffled)` argument is produced by the ambient randomness; a run
is faithful iff it permutes the dropped suffix. -/
abbrev IsShuffleOf (ratio : ℚ) (dsts shuffled : List Str) : Prop :=
  shuffled.Perm (dsts.drop (cutoff dsts.length ratio))

/-- The replacement mapping built at lines 197-198:
`mapping = {s: d for s, d in to_keep}` then
`mapping.update({src: new for src, new in zip(srcs, new_dsts)})`. -/
def fontMapping (exclude_set : List Str) (ratio : ℚ) (entries : List (Str × Str))
    (shuffled : List Str) : List (Str × Str) :=
  let ts := eligiblePart exclude_set entries
  let tk := keptPart exclude_set entries
  let new_dsts := scrambleDsts ratio (ts.map fun e => e.2) shuffled
  pyUpdate (pyDict tk) (pyDict ((ts.map fun e => e.1).zip new_dsts))

/-! ### The document pass -/

/-- A font resource: its `/BaseFont` name and its optional `/ToUnicode`
stream contents. -/
structure PdfFont where
  basefont : Str
  toUnicode : Option (List Nat)
deriving DecidableEq

/-- The `font_mappings` cache: base font name → replacement mapping. -/
abbrev Cache := List (Str × List (Str × Str))

/-- Processing of one font (the body of the inner loop): returns the
replacement stream contents assigned to `/ToUnicode` (if any), and the
updated cache and shuffle counter. -/
def processFont (exclude_set : List Str) (ratio : ℚ)
    (shuffle : Nat → List Str → List Str) (f : PdfFont) (st : Cache × Nat) :
    Option (List Nat) × Cache × Nat :=
  match f.toUnicode with
  | none => (none, st.1, st.2)
  | some raw =>
    match dictGet f.basefont st.1 with
    | some mapping => (some (encodeUtf8 (build_cmap mapping)), st.1, st.2)
    | none =>
      let entries := parse_cmap raw
      if entries = [] then (none, st.1, st.2)
      else if eligiblePart exclude_set entries = [] then (none, st.1, st.2)
      else
        let dsts := (eligiblePart exclude_set entries).map fun e => e.2
        let shuffled := shuffle st.2 (dsts.drop (cutoff dsts.length ratio))
        let mapping := fontMapping exclude_set ratio entries shuffled
        (some (encodeUtf8 (build_cmap mapping)),
         dictInsert f.basefont mapping st.1, st.2 + 1)

/-- The fonts of one page, in iteration order. -/
def processFonts (exclude_set : List Str) (ratio : ℚ)
    (shuffle : Nat → List Str → List Str) :
    List PdfFont → Cache × Nat → List (PdfFont × Option (List Nat)) × (Cache × Nat)
  | [], st => ([], st)
  | f :: fs, st =>
    let r := processFont exclude_set ratio shuffle f st
    let rest := processFonts exclude_set ratio shuffle fs (r.2.1, r.2.2)
    ((f, r.1) :: rest.1, rest.2)

/-- The pages of the document, in order. -/
def runPass (exclude_set : List Str) (ratio : ℚ)
    (shuffle : Nat → List Str → List Str) :
    List (List PdfFont) → Cache × Nat →
    List (List (PdfFont × Option (List Nat))) × (Cache × Nat)
  | [], st => ([], st)
  | pg :: pgs, st =>
    let r := processFonts exclude_set ratio shuffle pg st
    let rest := runPass exclude_set ratio shuffle pgs r.2
    (r.1 :: rest.1, rest.2)

/-- Commit a font's replacement stream (the assignment
`font_obj['/ToUnicode'] = pdf.make_stream(...)`). -/
def applyResult (fr : PdfFont × Option (List Nat)) : PdfFont :=
  match fr.2 with
  | some b => { basefont := fr.1.basefont, toUnicode := some b }
  | none => fr.1

/-- `scramble_pdf(pdf, font_mappings, ratio, exclude_codes)`.  The first
component is the raised error (if any); the second the document after the
pass; the third the final `font_mappings` cache. -/
def scramble_pdf (pdf : List (List PdfFont)) (font_mappings : Cache) (ratio : ℚ)
    (exclude_codes : List Str) (shuffle : Nat → List Str → List Str) :
    Option Str × List (List PdfFont) × Cache :=
  if ¬(0 ≤ ratio ∧ ratio ≤ 1) then
    (some "Ratio must be between 0.0 and 1.0".data, pdf, font_mappings)
  else if ratio = 0 then (none, pdf, font_mappings)
  else
    let exclude_set := exclude_codes.map pyUpper
    let r := runPass exclude_set ratio shuffle pdf (font_mappings, 0)
    (none, r.1.map fun pg => pg.map applyResult, r.2.1)

/-! ### Claims C1 and C2: the partial shuffle -/

theorem cutoff_le (n : Nat) (ratio : ℚ) (h0 : 0 ≤ ratio) : cutoff n ratio ≤ n := by
  unfold cutoff
  rw [Nat.ceil_le]
  have h1 : (1 - ratio) ≤ 1 := by linarith
  have hn : (0 : ℚ) ≤ (n : ℚ) := by positivity
  nlinarith

theorem scrambleDsts_take (ratio : ℚ) (dsts shuffled : List Str) (h0 : 0 ≤ ratio) :
    (scrambleDsts ratio dsts shuffled).take (cutoff dsts.length ratio) =
      dsts.take (cutoff dsts.length ratio) := by
  have hc : cutoff dsts.length ratio ≤ dsts.length := cutoff_le _ _ h0
  unfold scrambleDsts
  set c := cutoff dsts.length ratio with hcdef
  set A := dsts.take c with hA
  have hlen : A.length = c := by rw [hA, List.length_take]; omega
  calc (A ++ shuffled).take c = (A ++ shuffled).take A.length := by rw [hlen]
    _ = A := List.take_left _ _

theorem scrambleDsts_drop (ratio : ℚ) (dsts shuffled : List Str) (h0 : 0 ≤ ratio) :
    (scrambleDsts ratio dsts shuffled).drop (cutoff dsts.length ratio) = shuffled := by
  have hc : cutoff dsts.length ratio ≤ dsts.length := cutoff_le _ _ h0
  unfold scrambleDsts
  set c := cutoff dsts.length ratio with hcdef
  set A := dsts.take c with hA
  have hlen : A.length = c := by rw [hA, List.length_take]; omega
  calc (A ++ shuffled).drop c = (A ++ shuffled).drop A.length := by rw [hlen]
    _ = shuffled := List.drop_left _ _

theorem perm_pair_cases (l : List Str) (a b : Str) (h : l.Perm [a, b]) :
    l = [a, b] ∨ l = [b, a] := by
  have hlen : l.length = 2 := by simpa using h.length_eq
  obtain ⟨a1, a2, rfl⟩ : ∃ x y, l = [x, y] := by
    match l, hlen with
    | [x, y], _ => exact ⟨x, y, rfl⟩
  have ha1 : a1 = a ∨ a1 = b := by
    simpa using h.subset (List.mem_cons_self _ _)
  rcases ha1 with h1 | h1
  · left
    have h2 : [a2].Perm [b] := by rw [h1] at h; exact h.cons_inv
    rw [h1, List.perm_singleton.mp h2]
  · right
    have hswap : List.Perm [a, b] [b, a] := List.Perm.swap b a []
    have h2 : [a2].Perm [a] := by rw [h1] at h; exact (h.trans hswap).cons_inv
    rw [h1, List.perm_singleton.mp h2]

/-- **C1**: for every table whose eligible partition has `n > 0` entries
and every ratio in `[0,1]`, the scramble step keeps the first
`cutoff = ceil(n*(1-ratio))` eligible destination codes unchanged and in
order, and permutes the destination codes of the remaining `n - cutoff`
eligible entries among themselves only; for the all-eligible table
`[(00,41),(01,42),(02,43),(03,44)]` at ratio `1/2` the first two
destinations stay `41,42` and the output destination list is either
`[41,42,43,44]` or `[41,42,44,43]`. -/
theorem c1_fixed_prefix_shuffled_suffix :
    (∀ (exclude_set : List Str) (entries : List (Str × Str)) (ratio : ℚ)
       (shuffled : List Str),
      0 < ((eligiblePart exclude_set entries).map fun e => e.2).length →
      0 ≤ ratio → ratio ≤ 1 →
      IsShuffleOf ratio ((eligiblePart exclude_set entries).map fun e => e.2) shuffled →
      (scrambleDsts ratio ((eligiblePart exclude_set entries).map fun e => e.2) shuffled).take
          (cutoff ((eligiblePart exclude_set entries).map fun e => e.2).length ratio) =
        ((eligiblePart exclude_set entries).map fun e => e.2).take
          (cutoff ((eligiblePart exclude_set entries).map fun e => e.2).length ratio) ∧
      ((scrambleDsts ratio ((eligiblePart exclude_set entries).map fun e => e.2) shuffled).drop
          (cutoff ((eligiblePart exclude_set entries).map fun e => e.2).length ratio)).Perm
        (((eligiblePart exclude_set entries).map fun e => e.2).drop
          (cutoff ((eligiblePart exclude_set entries).map fun e => e.2).length ratio))) ∧
    (eligiblePart [] [("00".data, "41".data), ("01".data, "42".data),
        ("02".data, "43".data), ("03".data, "44".data)] =
      [("00".data, "41".data), ("01".data, "42".data),
       ("02".data, "43".data), ("03".data, "44".data)] ∧
     cutoff 4 (1/2) = 2 ∧
     ∀ shuffled : List Str,
       IsShuffleOf (1/2) ["41".data, "42".data, "43".data, "44".data] shuffled →
       (scrambleDsts (1/2) ["41".data, "42".data, "43".data, "44".data] shuffled).take 2 =
         ["41".data, "42".data] ∧
       (scrambleDsts (1/2) ["41".data, "42".data, "43".data, "44".data] shuffled =
          ["41".data, "42".data, "43".data, "44".data] ∨
        scrambleDsts (1/2) ["41".data, "42".data, "43".data, "44".data] shuffled =
          ["41".data, "42".data, "44".data, "43".data])) := by
  refine ⟨fun exclude_set entries ratio shuffled hn h0 h1 hsh => ?_, ?_, ?_, ?_⟩
  · refine ⟨scrambleDsts_take _ _ _ h0, ?_⟩
    rw [scrambleDsts_drop _ _ _ h0]
    exact hsh
  · decide
  · with_unfolding_all decide
  · intro shuffled hsh
    have hdrop : (["41".data, "42".data, "43".data, "44".data] : List Str).drop
        (cutoff (["41".data, "42".data, "43".data, "44".data] : List Str).length (1/2)) =
        ["43".data, "44".data] := by with_unfolding_all decide
    rw [IsShuffleOf, hdrop] at hsh
    rcases perm_pair_cases _ _ _ hsh with h | h <;> subst h
    · exact ⟨by with_unfolding_all decide, Or.inl (by with_unfolding_all decide)⟩
    · exact ⟨by with_unfolding_all decide, Or.inr (by with_unfolding_all decide)⟩

theorem c1_witness :
    (0 : ℚ) ≤ 1 ∧ (1 : ℚ) ≤ 1 ∧
    0 < ((eligiblePart [] [("00".data, "41".data), ("01".data, "42".data)]).map
        fun e => e.2).length ∧
    IsShuffleOf 1 ((eligiblePart [] [("00".data, "41".data), ("01".data, "42".data)]).map
        fun e => e.2) ["42".data, "41".data] ∧
    ((scrambleDsts 1 ((eligiblePart [] [("00".data, "41".data), ("01".data, "42".data)]).map
          fun e => e.2) ["42".data, "41".data]).drop
        (cutoff ((eligiblePart [] [("00".data, "41".data), ("01".data, "42".data)]).map
            fun e => e.2).length 1)).Perm
      (((eligiblePart [] [("00".data, "41".data), ("01".data, "42".data)]).map
          fun e => e.2).drop
        (cutoff ((eligiblePart [] [("00".data, "41".data), ("01".data, "42".data)]).map
            fun e => e.2).length 1)) := by
  refine ⟨by norm_num, le_refl 1, by decide, by with_unfolding_all decide, ?_⟩
  exact (c1_fixed_prefix_shuffled_suffix.1 [] [("00".data, "41".data), ("01".data, "42".data)]
    1 ["42".data, "41".data] (by decide) (by norm_num) (le_refl 1)
    (by with_unfolding_all decide)).2

/-- **C2**: for every table and ratio in `[0,1]`, the destination codes
assigned to the eligible partition after scrambling are a permutation of
the destination codes of the eligible partition before scrambling. -/
theorem c2_multiset_conservation (exclude_set : List Str) (entries : List (Str × Str))
    (ratio : ℚ) (shuffled : List Str) (h0 : 0 ≤ ratio) (h1 : ratio ≤ 1)
    (hsh : IsShuffleOf ratio ((eligiblePart exclude_set entries).map fun e => e.2) shuffled) :
    (scrambleDsts ratio ((eligiblePart exclude_set entries).map fun e => e.2) shuffled).Perm
      ((eligiblePart exclude_set entries).map fun e => e.2) := by
  unfold scrambleDsts
  exact (List.Perm.append_left _ hsh).trans (by rw [List.take_append_drop])

theorem c2_witness :
    (0 : ℚ) ≤ 1/2 ∧ (1/2 : ℚ) ≤ 1 ∧
    IsShuffleOf (1/2) ((eligiblePart [] [("00".data, "41".data), ("01".data, "42".data)]).map
        fun e => e.2) ["42".data] ∧
    (scrambleDsts (1/2) ((eligiblePart [] [("00".data, "41".data), ("01".data, "42".data)]).map
        fun e => e.2) ["42".data]).Perm
      ((eligiblePart [] [("00".data, "41".data), ("01".data, "42".data)]).map fun e => e.2) :=
  ⟨by norm_num, by norm_num, by with_unfolding_all decide,
   c2_multiset_conservation [] [("00".data, "41".data), ("01".data, "42".data)] (1/2)
     ["42".data] (by norm_num) (by norm_num) (by with_unfolding_all decide)⟩

/-! ### Claim C4: exclusion precedence -/

theorem dictGet_insert_ne {α : Type} (k s : Str) (v : α) (d : List (Str × α))
    (h : k ≠ s) : dictGet s (dictInsert k v d) = dictGet s d := by
  induction d with
  | nil => simp [dictInsert, dictGet, h]
  | cons e rest ih =>
    obtain ⟨k', v'⟩ := e
    by_cases hk : k' = k
    · subst hk
      simp [dictInsert, dictGet, h]
    · simp only [dictInsert, if_neg hk]
      by_cases hs : k' = s
      · simp [dictGet, hs]
      · simp [dictGet, hs, ih]

theorem pyUpdate_get_not_mem (items d : List (Str × Str)) (s : Str)
    (h : s ∉ items.map Prod.fst) : dictGet s (pyUpdate d items) = dictGet s d := by
  induction items generalizing d with
  | nil => rfl
  | cons e rest ih =>
    obtain ⟨k, v⟩ := e
    have hk : k ≠ s := by
      intro hks
      exact h (by simp [hks])
    have hr : s ∉ rest.map Prod.fst := by
      intro hs
      exact h (by simp [hs])
    show dictGet s (pyUpdate (dictInsert k v d) rest) = dictGet s d
    rw [ih _ hr, dictGet_insert_ne _ _ _ _ hk]

theorem keys_dictInsert {α : Type} (k : Str) (v : α) (d : List (Str × α)) (x : Str)
    (h : x ∈ (dictInsert k v d).map Prod.fst) : x = k ∨ x ∈ d.map Prod.fst := by
  induction d with
  | nil =>
    rw [show dictInsert k v ([] : List (Str × α)) = [(k, v)] from rfl] at h
    simp only [List.map_cons, List.map_nil, List.mem_singleton] at h
    exact Or.inl h
  | cons e rest ih =>
    obtain ⟨k', v'⟩ := e
    by_cases hk : k' = k
    · rw [show dictInsert k v ((k', v') :: rest) = (k, v) :: rest from by
        simp [dictInsert, hk]] at h
      simp only [List.map_cons, List.mem_cons] at h ⊢
      rcases h with h | h
      · exact Or.inl h
      · exact Or.inr (Or.inr h)
    · rw [show dictInsert k v ((k', v') :: rest) = (k', v') :: dictInsert k v rest from by
        simp [dictInsert, hk]] at h
      simp only [List.map_cons, List.mem_cons] at h ⊢
      rcases h with h | h
      · exact Or.inr (Or.inl h)
      · rcases ih h with h | h
        · exact Or.inl h
        · exact Or.inr (Or.inr h)

theorem keys_pyUpdate (items d : List (Str × Str)) (x : Str)
    (h : x ∈ (pyUpdate d items).map Prod.fst) :
    x ∈ d.map Prod.fst ∨ x ∈ items.map Prod.fst := by
  induction items generalizing d with
  | nil => exact Or.inl h
  | cons e rest ih =>
    obtain ⟨k, v⟩ := e
    have h' : x ∈ (pyUpdate (dictInsert k v d) rest).map Prod.fst := h
    rcases ih _ h' with h2 | h2
    · rcases keys_dictInsert _ _ _ _ h2 with h3 | h3
      · right; simp [h3]
      · left; exact h3
    · right; simp [h2]

theorem dictGet_not_mem {α : Type} (k : Str) (d : List (Str × α))
    (h : k ∉ d.map Prod.fst) : dictGet k d = none := by
  induction d with
  | nil => rfl
  | cons e rest ih =>
    obtain ⟨k', v'⟩ := e
    have hk : k' ≠ k := by
      intro hkk
      apply h
      rw [List.map_cons, hkk]
      exact List.mem_cons_self _ _
    rw [show dictGet k ((k', v') :: rest) = dictGet k rest from by
      simp [dictGet, hk]]
    apply ih
    intro hs
    apply h
    rw [List.map_cons]
    exact List.mem_cons_of_mem _ hs

theorem dictInsert_fresh {α : Type} (k : Str) (v : α) (d : List (Str × α))
    (h : dictGet k d = none) : dictInsert k v d = d ++ [(k, v)] := by
  induction d with
  | nil => rfl
  | cons e rest ih =>
    obtain ⟨k', v'⟩ := e
    by_cases hk : k' = k
    · simp [dictGet, hk] at h
    · simp only [dictGet, if_neg hk] at h
      simp [dictInsert, if_neg hk, ih h]

theorem pyUpdate_fresh (l d : List (Str × Str))
    (h1 : ∀ k ∈ l.map Prod.fst, k ∉ d.map Prod.fst)
    (h2 : (l.map Prod.fst).Nodup) : pyUpdate d l = d ++ l := by
  induction l generalizing d with
  | nil => simp [pyUpdate]
  | cons e rest ih =>
    obtain ⟨k, v⟩ := e
    simp only [List.map_cons, List.nodup_cons] at h2
    have hkd : dictGet k d = none :=
      dictGet_not_mem _ _ (h1 k (by simp))
    have step : pyUpdate d ((k, v) :: rest) = pyUpdate (dictInsert k v d) rest := rfl
    rw [step, dictInsert_fresh _ _ _ hkd]
    rw [ih (d ++ [(k, v)])]
    · simp
    · intro k' hk'
      simp only [List.map_append, List.mem_append, List.map_cons, List.map_nil,
        List.mem_singleton]
      push_neg
      constructor
      · exact h1 k' (by simp [hk'])
      · intro hcontra
        rw [hcontra] at hk'
        exact h2.1 hk'
    · exact h2.2

theorem pyDict_nodup_eq (l : List (Str × Str)) (h : (l.map Prod.fst).Nodup) :
    pyDict l = l := by
  have := pyUpdate_fresh l [] (by simp) h
  simpa [pyDict, pyUpdate] using this

theorem dictGet_mem_nodup (l : List (Str × Str)) (s d : Str)
    (h1 : (l.map Prod.fst).Nodup) (h2 : (s, d) ∈ l) : dictGet s l = some d := by
  induction l with
  | nil => simp at h2
  | cons e rest ih =>
    obtain ⟨k, v⟩ := e
    rcases List.mem_cons.mp h2 with h3 | h3
    · injection h3 with h31 h32
      rw [show dictGet s ((k, v) :: rest) = some v from by
        simp [dictGet, h31.symm], h32]
    · have hk : k ≠ s := by
        intro hks
        simp only [List.map_cons, List.nodup_cons] at h1
        apply h1.1
        rw [hks]
        exact List.mem_map_of_mem Prod.fst h3
      simp only [dictGet, if_neg hk]
      apply ih _ h3
      simp only [List.map_cons, List.nodup_cons] at h1
      exact h1.2

theorem nodup_key_eq (l : List (Str × Str)) (s d1 d2 : Str)
    (h : (l.map Prod.fst).Nodup) (h1 : (s, d1) ∈ l) (h2 : (s, d2) ∈ l) : d1 = d2 := by
  have e1 := dictGet_mem_nodup l s d1 h h1
  have e2 := dictGet_mem_nodup l s d2 h h2
  rw [e1] at e2
  exact Option.some.inj e2

/-- **C4**: an entry whose destination code is in the exclusion set
(case-insensitively) is classified as kept — the exclusion check precedes
every range rule, so this holds whatever the ranges say — and scrambling
maps its source code to its original destination code, for every ratio and
every shuffle outcome. -/
theorem c4_exclusion_precedence :
    (∀ (exclude_set : List Str) (dst : Str),
      pyUpper dst ∈ exclude_set → isScrambleEntry exclude_set dst = false) ∧
    (∀ (exclude_codes : List Str) (entries : List (Str × Str)) (ratio : ℚ)
       (shuffled : List Str) (s d : Str),
      (entries.map Prod.fst).Nodup → (s, d) ∈ entries →
      pyUpper d ∈ exclude_codes.map pyUpper →
      dictGet s (fontMapping (exclude_codes.map pyUpper) ratio entries shuffled) =
        some d) := by
  have hclass : ∀ (exclude_set : List Str) (dst : Str),
      pyUpper dst ∈ exclude_set → isScrambleEntry exclude_set dst = false := by
    intro exclude_set dst h
    simp only [isScrambleEntry, if_pos h]
  refine ⟨hclass, ?_⟩
  intro exclude_codes entries ratio shuffled s d hnodup hmem hexcl
  have hfalse : isScrambleEntry (exclude_codes.map pyUpper) d = false :=
    hclass _ _ hexcl
  have hmem_tk : (s, d) ∈ keptPart (exclude_codes.map pyUpper) entries := by
    rw [keptPart, List.mem_filter]
    exact ⟨hmem, by simp [hfalse]⟩
  have htk_nodup : ((keptPart (exclude_codes.map pyUpper) entries).map Prod.fst).Nodup :=
    List.Nodup.sublist (List.Sublist.map _ (List.filter_sublist _)) hnodup
  have hs_not_ts : s ∉ (eligiblePart (exclude_codes.map pyUpper) entries).map Prod.fst := by
    intro hs
    obtain ⟨⟨s', d'⟩, hmem', heq⟩ := List.mem_map.mp hs
    obtain ⟨hmem'', htrue⟩ := List.mem_filter.mp hmem'
    have hsd : s' = s := heq
    rw [hsd] at hmem''
    have : d' = d := nodup_key_eq entries s d' d hnodup hmem'' hmem
    rw [this] at htrue
    rw [hfalse] at htrue
    exact Bool.noConfusion htrue
  unfold fontMapping
  rw [pyUpdate_get_not_mem]
  · rw [pyDict_nodup_eq _ htk_nodup]
    exact dictGet_mem_nodup _ _ _ htk_nodup hmem_tk
  · intro hs
    apply hs_not_ts
    rcases keys_pyUpdate _ [] s hs with h2 | h2
    · simp at h2
    · obtain ⟨⟨s', d'⟩, hmem', heq⟩ := List.mem_map.mp h2
      have := (List.of_mem_zip hmem').1
      rw [← heq]
      exact this

theorem c4_witness :
    pyUpper "43".data ∈ ["43".data].map pyUpper ∧
    ((([("00".data, "41".data), ("01".data, "42".data), ("02".data, "43".data),
        ("03".data, "44".data)] : List (Str × Str)).map Prod.fst).Nodup ∧
      ("02".data, "43".data) ∈ ([("00".data, "41".data), ("01".data, "42".data),
        ("02".data, "43".data), ("03".data, "44".data)] : List (Str × Str))) ∧
    dictGet "02".data (fontMapping (["43".data].map pyUpper) 1
      [("00".data, "41".data), ("01".data, "42".data), ("02".data, "43".data),
       ("03".data, "44".data)] ["44".data, "42".data, "41".data]) = some "43".data :=
  ⟨by decide, ⟨by decide, by decide⟩,
   c4_exclusion_precedence.2 ["43".data]
     [("00".data, "41".data), ("01".data, "42".data), ("02".data, "43".data),
      ("03".data, "44".data)] 1 ["44".data, "42".data, "41".data] "02".data "43".data
     (by decide) (by decide) (by decide)⟩

/-! ### Claims C5 and C6: ratio validation and identity at zero -/

/-- **C5**: for a ratio outside `[0,1]`, `scramble_pdf` raises
`ValueError("Ratio must be between 0.0 and 1.0")` before touching any
page or font: the document is returned exactly as passed and the
`font_mappings` cache is exactly as passed. -/
theorem c5_ratio_range_error (pdf : List (List PdfFont)) (font_mappings : Cache)
    (ratio : ℚ) (exclude_codes : List Str) (shuffle : Nat → List Str → List Str)
    (h : ¬(0 ≤ ratio ∧ ratio ≤ 1)) :
    scramble_pdf pdf font_mappings ratio exclude_codes shuffle =
      (some "Ratio must be between 0.0 and 1.0".data, pdf, font_mappings) := by
  unfold scramble_pdf
  rw [if_pos h]

theorem c5_witness :
    ¬((0 : ℚ) ≤ 2 ∧ (2 : ℚ) ≤ 1) ∧
    scramble_pdf [[{ basefont := "F1".data, toUnicode := none }]] [] 2 []
        (fun _ l => l) =
      (some "Ratio must be between 0.0 and 1.0".data,
       [[{ basefont := "F1".data, toUnicode := none }]], []) :=
  ⟨by norm_num,
   c5_ratio_range_error [[{ basefont := "F1".data, toUnicode := none }]] [] 2 []
     (fun _ l => l) (by norm_num)⟩

/-- **C6**: at ratio `0` the call is the identity: no error is raised, the
document is returned with every font (and hence every mapping stream)
unchanged, and the cache is unchanged. -/
theorem c6_identity_at_zero (pdf : List (List PdfFont)) (font_mappings : Cache)
    (exclude_codes : List Str) (shuffle : Nat → List Str → List Str) :
    scramble_pdf pdf font_mappings 0 exclude_codes shuffle =
      (none, pdf, font_mappings) := by
  unfold scramble_pdf
  rw [if_neg (by norm_num), if_pos rfl]

/-! ### Claim C7: chunking of `build_cmap` into blocks of 100

The spec says every `beginbfchar` block holds at most 100 entries and
declares exactly the number of entries it holds.  The guard
`i != len(mapping) - 1` in the source skips the split when the split
point is the last entry, so a table of `100*k + 1` entries (`k ≥ 1`) gets
a final block of 101 entries declared as 100. -/

/-- Split a text back into its lines (inverse view of `"\n".join`),
tail-recursively. -/
def splitLinesGo (cur : Str) (acc : List Str) : Str → List Str
  | [] => (cur.reverse :: acc).reverse
  | c :: t =>
    if c = '\n' then splitLinesGo [] (cur.reverse :: acc) t
    else splitLinesGo (c :: cur) acc t

def splitLines (s : Str) : List Str := splitLinesGo [] [] s

example : splitLines "ab\nc\n".data = ["ab".data, "c".data, []] := by decide

/-- Decimal value of a digit string. -/
def decVal (s : Str) : Nat := s.foldl (fun a c => a * 10 + (c.toNat - 48)) 0

/-- Does this line open a `beginbfchar` block?  If so, its declared entry
count. -/
def lineDeclares (l : Str) : Option Nat :=
  let pre := l.takeWhile fun c => c ≠ ' '
  let post := l.dropWhile fun c => c ≠ ' '
  if post = ' ' :: bfcharPat ∧ pre ≠ [] ∧ pre.all (fun c => '0' ≤ c && c ≤ '9') then
    some (decVal pre)
  else none

/-- Number of entry lines from here to the closing `endbfchar`. -/
def blockEntryCountGo (acc : Nat) : List Str → Nat
  | [] => acc
  | l :: rest =>
    if l = "endbfchar".data then acc
    else blockEntryCountGo (acc + (if l.head? = some '<' then 1 else 0)) rest

def blockEntryCount (ls : List Str) : Nat := blockEntryCountGo 0 ls

/-- All `beginbfchar` blocks of a line list, as
(declared count, actual number of entry lines). -/
def blockCountsGo (acc : List (Nat × Nat)) : List Str → List (Nat × Nat)
  | [] => acc.reverse
  | l :: rest =>
    match lineDeclares l with
    | some k => blockCountsGo ((k, blockEntryCount rest) :: acc) rest
    | none => blockCountsGo acc rest

def blockCounts (ls : List Str) : List (Nat × Nat) := blockCountsGo [] ls

-- well-behaved sizes chunk correctly:
set_option maxRecDepth 200000 in
example :
    blockCounts (splitLines (build_cmap
      ((List.range 2).map fun i => (natStr (10 + i), "41".data)))) = [(2, 2)] := by
  decide

set_option maxRecDepth 200000 in
example :
    blockCounts (splitLines (build_cmap
      ((List.range 100).map fun i => (natStr (100 + i), "41".data)))) = [(100, 100)] := by
  decide

set_option maxRecDepth 200000 in
example :
    blockCounts (splitLines (build_cmap
      ((List.range 200).map fun i => (natStr (100 + i), "41".data)))) =
    [(100, 100), (100, 100)] := by
  decide

set_option maxRecDepth 200000 in
/-- **C7** (the bug exhibited): on the 101-entry table with distinct
sources `100..200` the built text contains exactly one `beginbfchar`
block, which declares 100 entries but contains 101 — contradicting both
"at most 100 entries per block" and "declares a count equal to the number
of entries actually contained". -/
theorem c7_chunk_count_bug :
    blockCounts (splitLines (build_cmap
      ((List.range 101).map fun i => (natStr (100 + i), "41".data)))) = [(100, 101)] ∧
    ¬(101 ≤ 100) := by
  constructor
  · decide
  · decide

/-! ### Claim C8: determinism of cache reuse -/

theorem dictGet_insert_self {α : Type} (k : Str) (v : α) (d : List (Str × α)) :
    dictGet k (dictInsert k v d) = some v := by
  induction d with
  | nil => simp [dictGet, dictInsert]
  | cons e rest ih =>
    obtain ⟨k', v'⟩ := e
    by_cases hk : k' = k
    · simp [dictInsert, hk, dictGet]
    · simp [dictInsert, hk, dictGet, ih]

theorem processFont_cache_mono (exclude_set : List Str) (ratio : ℚ)
    (shuffle : Nat → List Str → List Str) (f : PdfFont) (st : Cache × Nat)
    (B : Str) (m : List (Str × Str)) (h : dictGet B st.1 = some m) :
    dictGet B (processFont exclude_set ratio shuffle f st).2.1 = some m := by
  unfold processFont
  split
  · exact h
  · split
    · exact h
    · rename_i hcache
      dsimp only
      split
      · exact h
      · split
        · exact h
        · dsimp only
          have hne : f.basefont ≠ B := by
            intro he
            rw [he, h] at hcache
            exact Option.noConfusion hcache
          rw [dictGet_insert_ne _ _ _ _ hne]
          exact h

theorem processFont_replaced (exclude_set : List Str) (ratio : ℚ)
    (shuffle : Nat → List Str → List Str) (f : PdfFont) (st : Cache × Nat)
    (b : List Nat) (h : (processFont exclude_set ratio shuffle f st).1 = some b) :
    ∃ m, dictGet f.basefont (processFont exclude_set ratio shuffle f st).2.1 = some m ∧
      b = encodeUtf8 (build_cmap m) := by
  unfold processFont at h ⊢
  split at h
  · dsimp only at h
    exact Option.noConfusion h
  · rename_i raw hsplit1
    split at h
    · rename_i mapping hcache
      dsimp only at h ⊢
      exact ⟨mapping, hcache, (Option.some.inj h).symm⟩
    · rename_i hcache
      dsimp only at h ⊢
      split at h
      · rename_i hparse
        rw [if_pos hparse]
        dsimp only at h
        exact Option.noConfusion h
      · rename_i hparse
        rw [if_neg hparse]
        split at h
        · rename_i heligible
          rw [if_pos heligible]
          dsimp only at h
          exact Option.noConfusion h
        · rename_i heligible
          rw [if_neg heligible]
          dsimp only at h ⊢
          exact ⟨_, dictGet_insert_self _ _ _, (Option.some.inj h).symm⟩

theorem processFonts_mono (exclude_set : List Str) (ratio : ℚ)
    (shuffle : Nat → List Str → List Str) (fs : List PdfFont) (st : Cache × Nat)
    (B : Str) (m : List (Str × Str)) (h : dictGet B st.1 = some m) :
    dictGet B (processFonts exclude_set ratio shuffle fs st).2.1 = some m := by
  induction fs generalizing st with
  | nil => exact h
  | cons g gs ih =>
    show dictGet B (processFonts exclude_set ratio shuffle gs
      ((processFont exclude_set ratio shuffle g st).2.1,
       (processFont exclude_set ratio shuffle g st).2.2)).2.1 = some m
    exact ih _ (processFont_cache_mono _ _ _ _ _ _ _ h)

theorem processFonts_replaced (exclude_set : List Str) (ratio : ℚ)
    (shuffle : Nat → List Str → List Str) (fs : List PdfFont) (st : Cache × Nat)
    (f : PdfFont) (b : List Nat)
    (h : (f, some b) ∈ (processFonts exclude_set ratio shuffle fs st).1) :
    ∃ m, dictGet f.basefont (processFonts exclude_set ratio shuffle fs st).2.1 = some m ∧
      b = encodeUtf8 (build_cmap m) := by
  induction fs generalizing st with
  | nil => simp [processFonts] at h
  | cons g gs ih =>
    have hstep : processFonts exclude_set ratio shuffle (g :: gs) st =
        ((g, (processFont exclude_set ratio shuffle g st).1) ::
          (processFonts exclude_set ratio shuffle gs
            ((processFont exclude_set ratio shuffle g st).2.1,
             (processFont exclude_set ratio shuffle g st).2.2)).1,
         (processFonts exclude_set ratio shuffle gs
            ((processFont exclude_set ratio shuffle g st).2.1,
             (processFont exclude_set ratio shuffle g st).2.2)).2) := rfl
    rw [hstep] at h ⊢
    rcases List.mem_cons.mp h with h1 | h1
    · injection h1 with hf hb
      obtain ⟨m, hget, hbm⟩ :=
        processFont_replaced exclude_set ratio shuffle g st b hb.symm
      rw [hf]
      exact ⟨m, processFonts_mono _ _ _ _ _ _ _ hget, hbm⟩
    · exact ih _ h1

theorem runPass_mono (exclude_set : List Str) (ratio : ℚ)
    (shuffle : Nat → List Str → List Str) (pgs : List (List PdfFont))
    (st : Cache × Nat) (B : Str) (m : List (Str × Str))
    (h : dictGet B st.1 = some m) :
    dictGet B (runPass exclude_set ratio shuffle pgs st).2.1 = some m := by
  induction pgs generalizing st with
  | nil => exact h
  | cons pg pgs ih =>
    show dictGet B (runPass exclude_set ratio shuffle pgs
      (processFonts exclude_set ratio shuffle pg st).2).2.1 = some m
    exact ih _ (processFonts_mono _ _ _ _ _ _ _ h)

theorem runPass_replaced (exclude_set : List Str) (ratio : ℚ)
    (shuffle : Nat → List Str → List Str) (pgs : List (List PdfFont))
    (st : Cache × Nat) (f : PdfFont) (b : List Nat)
    (h : (f, some b) ∈ (runPass exclude_set ratio shuffle pgs st).1.flatten) :
    ∃ m, dictGet f.basefont (runPass exclude_set ratio shuffle pgs st).2.1 = some m ∧
      b = encodeUtf8 (build_cmap m) := by
  induction pgs generalizing st with
  | nil => simp [runPass] at h
  | cons pg pgs ih =>
    have hstep : runPass exclude_set ratio shuffle (pg :: pgs) st =
        ((processFonts exclude_set ratio shuffle pg st).1 ::
          (runPass exclude_set ratio shuffle pgs
            (processFonts exclude_set ratio shuffle pg st).2).1,
         (runPass exclude_set ratio shuffle pgs
            (processFonts exclude_set ratio shuffle pg st).2).2) := rfl
    rw [hstep] at h ⊢
    rw [List.flatten_cons, List.mem_append] at h
    rcases h with h1 | h1
    · obtain ⟨m, hget, hbm⟩ := processFonts_replaced _ _ _ _ _ _ _ h1
      exact ⟨m, runPass_mono _ _ _ _ _ _ _ hget, hbm⟩
    · exact ih _ h1

/-- **C8**: (a) a font whose base identity is already cached is rewritten
with exactly the encoding of the cached mapping, with no change to cache
or shuffle counter (reuse is verbatim and skips recomputation); (b) any
two fonts of one document pass that receive replacement streams and share
a base-identity string receive byte-identical streams. -/
theorem c8_cache_reuse_byte_identical :
    (∀ (exclude_set : List Str) (ratio : ℚ) (shuffle : Nat → List Str → List Str)
       (f : PdfFont) (st : Cache × Nat) (raw : List Nat) (m : List (Str × Str)),
      f.toUnicode = some raw → dictGet f.basefont st.1 = some m →
      processFont exclude_set ratio shuffle f st =
        (some (encodeUtf8 (build_cmap m)), st.1, st.2)) ∧
    (∀ (exclude_set : List Str) (ratio : ℚ) (shuffle : Nat → List Str → List Str)
       (pdf : List (List PdfFont)) (st : Cache × Nat) (f1 f2 : PdfFont)
       (b1 b2 : List Nat),
      (f1, some b1) ∈ (runPass exclude_set ratio shuffle pdf st).1.flatten →
      (f2, some b2) ∈ (runPass exclude_set ratio shuffle pdf st).1.flatten →
      f1.basefont = f2.basefont → b1 = b2) := by
  constructor
  · intro exclude_set ratio shuffle f st raw m hf hcache
    unfold processFont
    rw [hf]
    dsimp only
    rw [hcache]
  · intro exclude_set ratio shuffle pdf st f1 f2 b1 b2 h1 h2 hB
    obtain ⟨m1, hget1, hb1⟩ := runPass_replaced _ _ _ _ _ _ _ h1
    obtain ⟨m2, hget2, hb2⟩ := runPass_replaced _ _ _ _ _ _ _ h2
    rw [hB] at hget1
    rw [hget1] at hget2
    rw [hb1, hb2, Option.some.inj hget2]

/-- Two fonts sharing the base identity `B0` but with different original
streams, for the C8 witness run. -/
def c8fontA : PdfFont :=
  { basefont := "B0".data,
    toUnicode := some (encodeUtf8 "beginbfchar\n<01> <41>\nendcmap".data) }

def c8fontB : PdfFont :=
  { basefont := "B0".data,
    toUnicode := some (encodeUtf8 "beginbfchar\n<02> <42>\nendcmap".data) }

def c8bytes : List Nat := encodeUtf8 (build_cmap [("01".data, "41".data)])

def c8results : List (PdfFont × Option (List Nat)) :=
  (runPass [] 1 (fun _ l => l) [[c8fontA, c8fontB]] ([], 0)).1.flatten

set_option maxRecDepth 200000 in
theorem c8_witness :
    (c8fontA, some c8bytes) ∈ c8results ∧ (c8fontB, some c8bytes) ∈ c8results ∧
    c8bytes = c8bytes := by
  have h1 : (c8fontA, some c8bytes) ∈ c8results := by with_unfolding_all decide
  have h2 : (c8fontB, some c8bytes) ∈ c8results := by with_unfolding_all decide
  exact ⟨h1, h2, c8_cache_reuse_byte_identical.2 [] 1 (fun _ l => l) [[c8fontA, c8fontB]]
    ([], 0) c8fontA c8fontB c8bytes c8bytes h1 h2 rfl⟩

/-! ### Claims C9 and C10: parser robustness -/

theorem isPrefixOf_iff (pat l : Str) : pat.isPrefixOf l = true ↔ ∃ b, l = pat ++ b := by
  induction pat generalizing l with
  | nil => simp [List.isPrefixOf]
  | cons p ps ih =>
    cases l with
    | nil => simp [List.isPrefixOf]
    | cons c t =>
      simp only [List.isPrefixOf, Bool.and_eq_true, beq_iff_eq, ih, List.cons_append,
        List.cons.injEq]
      constructor
      · rintro ⟨rfl, b, rfl⟩
        exact ⟨b, rfl, rfl⟩
      · rintro ⟨b, rfl, rfl⟩
        exact ⟨rfl, b, rfl⟩

theorem splitOnSublist_none_iff (pat l : Str) (hp : pat ≠ []) :
    splitOnSublist pat l = none ↔ ¬ ∃ a b, l = a ++ pat ++ b := by
  induction l with
  | nil =>
    simp only [splitOnSublist, if_neg hp]
    constructor
    · rintro _ ⟨a, b, hab⟩
      rcases a with _ | ⟨x, a⟩
      · rcases pat with _ | ⟨y, p⟩
        · exact hp rfl
        · exact List.noConfusion hab
      · exact List.noConfusion hab
    · intro _
      trivial
  | cons c t ih =>
    by_cases hpre : pat.isPrefixOf (c :: t)
    · simp only [splitOnSublist, if_pos hpre]
      constructor
      · intro h
        exact Option.noConfusion h
      · intro h
        exfalso
        obtain ⟨b, hb⟩ := (isPrefixOf_iff pat (c :: t)).mp hpre
        exact h ⟨[], b, by simpa using hb⟩
    · simp only [splitOnSublist, if_neg hpre]
      have step : (match splitOnSublist pat t with
          | some (pre, post) => some (c :: pre, post)
          | none => none) = none ↔ splitOnSublist pat t = none := by
        cases hs : splitOnSublist pat t with
        | none => simp
        | some pr => obtain ⟨pre, post⟩ := pr; simp
      rw [step, ih]
      constructor
      · rintro h ⟨a, b, hab⟩
        rcases a with _ | ⟨x, a⟩
        · exact hpre ((isPrefixOf_iff pat (c :: t)).mpr ⟨b, by simpa using hab⟩)
        · rcases List.cons.injEq .. ▸ hab with ⟨rfl, ht⟩
          exact h ⟨a, b, ht⟩
      · rintro h ⟨a, b, hab⟩
        exact h ⟨c :: a, b, by simp [hab]⟩

/-- **C9**: when the `beginbfchar` delimiter is absent the parser falls
back to scanning the entire input for entry tokens; undecodable input
yields the empty table rather than an error, and malformed tokens are
silently skipped. -/
theorem c9_lenient_parse :
    (∀ text : Str, (¬ ∃ a b, text = a ++ bfcharPat ++ b) →
      parseCmapChars text = findPairs text) ∧
    parse_cmap (encodeUtf8 "no mapping block in sight".data) = [] ∧
    parse_cmap [0xFF, 0xFE, 0x00] = [] ∧
    parseCmapChars "xx <12 <34> <56> yy".data = [("34".data, "56".data)] := by
  refine ⟨?_, by decide, by decide, by decide⟩
  intro text h
  have hnone : splitOnSublist bfcharPat text = none :=
    (splitOnSublist_none_iff bfcharPat text (by decide)).mpr h
  unfold parseCmapChars
  rw [hnone]

theorem c9_witness :
    (¬ ∃ a b, "XY <01> <41>".data = a ++ bfcharPat ++ b) ∧
    parseCmapChars "XY <01> <41>".data = findPairs "XY <01> <41>".data := by
  have h : ¬ ∃ a b, "XY <01> <41>".data = a ++ bfcharPat ++ b :=
    (splitOnSublist_none_iff bfcharPat "XY <01> <41>".data (by decide)).mp (by decide)
  exact ⟨h, c9_lenient_parse.1 "XY <01> <41>".data h⟩

theorem matchPair_some_valid (l : Str) (p : (Str × Str) × Str)
    (h : matchPair l = some p) :
    p.1.1 ≠ [] ∧ (∀ c ∈ p.1.1, isHexChar c = true) ∧
    p.1.2 ≠ [] ∧ (∀ c ∈ p.1.2, isHexChar c = true) := by
  unfold matchPair at h
  split at h
  · exact Option.noConfusion h
  · rename_i c t
    split at h
    · exact Option.noConfusion h
    · try dsimp only at h
      split at h
      · exact Option.noConfusion h
      · rename_i c1 t2 hdrop1
        split at h
        · exact Option.noConfusion h
        · rename_i hcond1
          push_neg at hcond1
          try dsimp only at h
          split at h
          · exact Option.noConfusion h
          · rename_i c2 t4 hdrop2
            split at h
            · exact Option.noConfusion h
            · rename_i hcond2
              push_neg at hcond2
              try dsimp only at h
              split at h
              · exact Option.noConfusion h
              · rename_i c3 t6 hdrop3
                split at h
                · exact Option.noConfusion h
                · rename_i hcond3
                  push_neg at hcond3
                  rw [← Option.some.inj h]
                  refine ⟨hcond1.1, ?_, hcond3.1, ?_⟩
                  · intro ch hch
                    exact List.mem_takeWhile_imp hch
                  · intro ch hch
                    exact List.mem_takeWhile_imp hch

theorem findPairsGo_valid (fuel : Nat) (l : Str) (p : Str × Str)
    (h : p ∈ findPairsGo fuel l) :
    p.1 ≠ [] ∧ (∀ c ∈ p.1, isHexChar c = true) ∧
    p.2 ≠ [] ∧ (∀ c ∈ p.2, isHexChar c = true) := by
  induction fuel generalizing l with
  | zero => simp [findPairsGo] at h
  | succ fuel ih =>
    cases l with
    | nil => simp [findPairsGo] at h
    | cons c t =>
      unfold findPairsGo at h
      split at h
      · rename_i pr rest hmatch
        rcases List.mem_cons.mp h with h1 | h1
        · have := matchPair_some_valid _ _ hmatch
          rw [h1]
          exact this
        · exact ih _ h1
      · exact ih _ h

/-- **C10**: `parse_cmap` is total over arbitrary byte input — it is a
plain function in this model because nothing in it can fail — and every
pair it returns consists of two non-empty strings of hexadecimal
digits. -/
theorem c10_parse_total (bs : List Nat) (p : Str × Str) (h : p ∈ parse_cmap bs) :
    p.1 ≠ [] ∧ (∀ c ∈ p.1, isHexChar c = true) ∧
    p.2 ≠ [] ∧ (∀ c ∈ p.2, isHexChar c = true) :=
  findPairsGo_valid _ _ _ h

theorem c10_witness :
    ("0000".data, "0020".data) ∈
      parse_cmap (encodeUtf8 "beginbfchar\n<0000> <0020>\nendcmap".data) ∧
    ("0000".data : Str) ≠ [] ∧
    (∀ c ∈ ("0000".data : Str), isHexChar c = true) ∧
    ("0020".data : Str) ≠ [] ∧
    (∀ c ∈ ("0020".data : Str), isHexChar c = true) := by
  have h : ("0000".data, "0020".data) ∈
      parse_cmap (encodeUtf8 "beginbfchar\n<0000> <0020>\nendcmap".data) := by decide
  exact ⟨h, c10_parse_total _ _ h⟩

/-! ### Claim C3: round-trip `parse_cmap (build_cmap T) = T`

The proof walks the built text through the parser: the first
`beginbfchar` is the one of the first count line (the header contains no
other occurrence), the first `endcmap` after it is the footer's (the
entry region contains none), and the scan of the stripped content
recovers exactly the entry pairs. -/

theorem takeWhile_append_all (p : Char → Bool) (a l : Str)
    (h : ∀ c ∈ a, p c = true) : (a ++ l).takeWhile p = a ++ l.takeWhile p := by
  induction a with
  | nil => rfl
  | cons c t ih =>
    rw [List.cons_append, List.takeWhile_cons_of_pos (h c (List.mem_cons_self _ _)),
      ih (fun c hc => h c (List.mem_cons_of_mem _ hc))]
    rfl

theorem dropWhile_append_all (p : Char → Bool) (a l : Str)
    (h : ∀ c ∈ a, p c = true) : (a ++ l).dropWhile p = l.dropWhile p := by
  induction a with
  | nil => rfl
  | cons c t ih =>
    rw [List.cons_append, List.dropWhile_cons_of_pos (h c (List.mem_cons_self _ _)),
      ih (fun c hc => h c (List.mem_cons_of_mem _ hc))]

/-- The text of one entry: `<src> <dst>`. -/
theorem matchPair_entry (a b : Str) (rest : Str)
    (ha : a ≠ []) (hahex : ∀ c ∈ a, isHexChar c = true)
    (hb : b ≠ []) (hbhex : ∀ c ∈ b, isHexChar c = true) :
    matchPair ('<' :: (a ++ ('>' :: ' ' :: '<' :: (b ++ ('>' :: rest))))) =
      some ((a, b), rest) := by
  have htw1 : (a ++ ('>' :: ' ' :: '<' :: (b ++ ('>' :: rest)))).takeWhile isHexChar
      = a := by
    rw [takeWhile_append_all _ _ _ hahex, List.takeWhile_cons_of_neg (by decide)]
    simp
  have hdw1 : (a ++ ('>' :: ' ' :: '<' :: (b ++ ('>' :: rest)))).dropWhile isHexChar =
      '>' :: ' ' :: '<' :: (b ++ ('>' :: rest)) := by
    rw [dropWhile_append_all _ _ _ hahex, List.dropWhile_cons_of_neg (by decide)]
  have htw2 : (' ' :: '<' :: (b ++ ('>' :: rest))).takeWhile pySpace = [' '] := by
    rw [List.takeWhile_cons_of_pos (p := pySpace) (by decide),
      List.takeWhile_cons_of_neg (by decide)]
  have hdw2 : (' ' :: '<' :: (b ++ ('>' :: rest))).dropWhile pySpace =
      '<' :: (b ++ ('>' :: rest)) := by
    rw [List.dropWhile_cons_of_pos (p := pySpace) (by decide),
      List.dropWhile_cons_of_neg (by decide)]
  have htw3 : (b ++ ('>' :: rest)).takeWhile isHexChar = b := by
    rw [takeWhile_append_all _ _ _ hbhex, List.takeWhile_cons_of_neg (by decide)]
    simp
  have hdw3 : (b ++ ('>' :: rest)).dropWhile isHexChar = '>' :: rest := by
    rw [dropWhile_append_all _ _ _ hbhex, List.dropWhile_cons_of_neg (by decide)]
  unfold matchPair
  dsimp only
  rw [if_neg (by simp)]
  rw [htw1, hdw1]
  dsimp only
  rw [if_neg (by simp [ha])]
  rw [htw2, hdw2]
  dsimp only
  rw [if_neg (by simp)]
  rw [htw3, hdw3]
  dsimp only
  rw [if_neg (by simp [hb])]

theorem matchPair_none_of_ne (c : Char) (t : Str) (h : c ≠ '<') :
    matchPair (c :: t) = none := by
  unfold matchPair
  dsimp only
  rw [if_pos h]

/-- `matchPair` consumes at least one character. -/
theorem matchPair_rest_lt (l : Str) (p : (Str × Str) × Str)
    (h : matchPair l = some p) : p.2.length < l.length := by
  unfold matchPair at h
  split at h
  · exact Option.noConfusion h
  · rename_i c t
    split at h
    · exact Option.noConfusion h
    · try dsimp only at h
      split at h
      · exact Option.noConfusion h
      · rename_i c1 t2 hdrop1
        split at h
        · exact Option.noConfusion h
        · try dsimp only at h
          split at h
          · exact Option.noConfusion h
          · rename_i c2 t4 hdrop2
            split at h
            · exact Option.noConfusion h
            · try dsimp only at h
              split at h
              · exact Option.noConfusion h
              · rename_i c3 t6 hdrop3
                split at h
                · exact Option.noConfusion h
                · have h2 : p.2 = t6 := by rw [← Option.some.inj h]
                  have s1 : t2.length < t.length := by
                    have := (List.dropWhile_sublist isHexChar (l := t)).length_le
                    rw [hdrop1] at this
                    simp at this
                    omega
                  have s2 : t4.length ≤ t2.length := by
                    have := (List.dropWhile_sublist pySpace (l := t2)).length_le
                    rw [hdrop2] at this
                    simp at this
                    omega
                  have s3 : t6.length ≤ t4.length := by
                    have := (List.dropWhile_sublist isHexChar (l := t4)).length_le
                    rw [hdrop3] at this
                    simp at this
                    omega
                  rw [h2]
                  simp only [List.length_cons]
                  omega

/-- The scan result does not depend on the fuel once it covers the text
length. -/
theorem findPairsGo_fuel (n1 : Nat) :
    ∀ (n2 : Nat) (l : Str), l.length ≤ n1 → l.length ≤ n2 →
      findPairsGo n1 l = findPairsGo n2 l := by
  induction n1 with
  | zero =>
    intro n2 l h1 _
    have : l = [] := List.length_eq_zero.mp (by omega)
    subst this
    cases n2 <;> rfl
  | succ f ih =>
    intro n2 l h1 h2
    cases l with
    | nil => cases n2 <;> rfl
    | cons c t =>
      cases n2 with
      | zero => simp at h2
      | succ g =>
        show findPairsGo (f + 1) (c :: t) = findPairsGo (g + 1) (c :: t)
        unfold findPairsGo
        cases hm : matchPair (c :: t) with
        | none =>
          simp only [List.length_cons] at h1 h2
          exact ih g t (by omega) (by omega)
        | some pr =>
          obtain ⟨p, rest⟩ := pr
          have hlt : rest.length < (c :: t).length := matchPair_rest_lt _ _ hm
          simp only [List.length_cons] at h1 h2 hlt
          dsimp only
          rw [ih g rest (by omega) (by omega)]

theorem findPairs_eq_go (fuel : Nat) (l : Str) (h : l.length ≤ fuel) :
    findPairs l = findPairsGo fuel l :=
  findPairsGo_fuel l.length fuel l le_rfl h

/-- Scanning skips a character that cannot start a match. -/
theorem findPairs_skip (c : Char) (t : Str) (h : c ≠ '<') :
    findPairs (c :: t) = findPairs t := by
  show findPairsGo (c :: t).length (c :: t) = findPairs t
  rw [show (c :: t).length = t.length + 1 from rfl]
  unfold findPairsGo
  rw [matchPair_none_of_ne _ _ h]
  dsimp only
  rfl

/-- Scanning skips any text free of `<`. -/
theorem findPairs_skip_junk (j t : Str) (h : ∀ c ∈ j, c ≠ '<') :
    findPairs (j ++ t) = findPairs t := by
  induction j with
  | nil => rfl
  | cons c j' ih =>
    rw [List.cons_append, findPairs_skip _ _ (h c (List.mem_cons_self _ _)),
      ih (fun c hc => h c (List.mem_cons_of_mem _ hc))]

theorem findPairs_junk_nil (j : Str) (h : ∀ c ∈ j, c ≠ '<') : findPairs j = [] := by
  have := findPairs_skip_junk j [] h
  simpa using this

/-- Scanning an entry at the head emits its pair and continues after
it. -/
theorem findPairs_entry (a b rest : Str)
    (ha : a ≠ []) (hahex : ∀ c ∈ a, isHexChar c = true)
    (hb : b ≠ []) (hbhex : ∀ c ∈ b, isHexChar c = true) :
    findPairs ('<' :: (a ++ ('>' :: ' ' :: '<' :: (b ++ ('>' :: rest))))) =
      (a, b) :: findPairs rest := by
  have hm := matchPair_entry a b rest ha hahex hb hbhex
  have hlt : rest.length <
      ('<' :: (a ++ ('>' :: ' ' :: '<' :: (b ++ ('>' :: rest))))).length :=
    matchPair_rest_lt _ ((a, b), rest) hm
  show findPairsGo ('<' :: (a ++ ('>' :: ' ' :: '<' :: (b ++ ('>' :: rest))))).length _ =
    _
  rw [show ('<' :: (a ++ ('>' :: ' ' :: '<' :: (b ++ ('>' :: rest))))).length =
    (a ++ ('>' :: ' ' :: '<' :: (b ++ ('>' :: rest)))).length + 1 from rfl]
  unfold findPairsGo
  rw [hm]
  dsimp only
  rw [← findPairs_eq_go _ _ (by simp only [List.length_cons] at hlt; omega)]

/-- `a` is clean for `pat`: no occurrence of `pat` can start inside `a`,
whatever follows, so the search skips over it. -/
def CleanFor (pat a : Str) : Prop :=
  ∀ rest : Str, splitOnSublist pat (a ++ rest) =
    (splitOnSublist pat rest).map fun pr => (a ++ pr.1, pr.2)

theorem cleanFor_nil (pat : Str) : CleanFor pat [] := by
  intro rest
  cases h : splitOnSublist pat rest with
  | none => simp [h]
  | some pr => simp [h]

theorem cleanFor_append (pat a b : Str) (ha : CleanFor pat a) (hb : CleanFor pat b) :
    CleanFor pat (a ++ b) := by
  intro rest
  rw [List.append_assoc, ha, hb]
  cases splitOnSublist pat rest with
  | none => rfl
  | some pr => simp

theorem cleanFor_cons (pat : Str) (c : Char) (a : Str)
    (hpre : ∀ rest : Str, ¬ pat.isPrefixOf (c :: (a ++ rest)) = true)
    (ha : CleanFor pat a) : CleanFor pat (c :: a) := by
  intro rest
  show splitOnSublist pat (c :: (a ++ rest)) = _
  rw [show splitOnSublist pat (c :: (a ++ rest)) =
      (if pat.isPrefixOf (c :: (a ++ rest)) then
        some ([], (c :: (a ++ rest)).drop pat.length)
      else match splitOnSublist pat (a ++ rest) with
        | some (pre, post) => some (c :: pre, post)
        | none => none) from by rw [splitOnSublist]]
  rw [if_neg (hpre rest), ha rest]
  cases splitOnSublist pat rest with
  | none => rfl
  | some pr => simp

theorem not_prefixOf_two (p0 p1 : Char) (pp : Str) (c : Char) (w : Str)
    (h : c ≠ p0 ∨ ∀ x, w.head? = some x → x ≠ p1) :
    ¬ (p0 :: p1 :: pp).isPrefixOf (c :: w) = true := by
  cases w with
  | nil => simp [List.isPrefixOf]
  | cons x w' =>
    simp only [List.isPrefixOf, Bool.and_eq_true, beq_iff_eq]
    rintro ⟨rfl, rfl, _⟩
    rcases h with h | h
    · exact h rfl
    · exact h _ rfl rfl

theorem cleanFor_no_head (p : Char) (pp : Str) (a : Str) (h : ∀ c ∈ a, c ≠ p) :
    CleanFor (p :: pp) a := by
  induction a with
  | nil => exact cleanFor_nil _
  | cons c t ih =>
    refine cleanFor_cons _ _ _ (fun rest => ?_)
      (ih fun c hc => h c (List.mem_cons_of_mem _ hc))
    simp only [List.isPrefixOf, Bool.and_eq_true, beq_iff_eq]
    rintro ⟨rfl, -⟩
    exact h _ (List.mem_cons_self _ _) rfl

theorem cleanFor_hex_close (s : Str) (hs : ∀ c ∈ s, isHexChar c = true) :
    CleanFor endcmapPat (s ++ ['>']) := by
  induction s with
  | nil =>
    refine cleanFor_cons _ _ _ (fun rest => ?_) (cleanFor_nil _)
    exact not_prefixOf_two 'e' 'n' "dcmap".data '>' _ (Or.inl (by decide))
  | cons c s' ih =>
    rw [List.cons_append]
    refine cleanFor_cons _ _ _ (fun rest => ?_)
      (ih fun c hc => hs c (List.mem_cons_of_mem _ hc))
    apply not_prefixOf_two
    by_cases hc : c = 'e'
    · right
      intro x hx
      cases s' with
      | nil =>
        simp at hx
        rw [← hx]
        decide
      | cons y s'' =>
        simp at hx
        have hy : isHexChar y = true :=
          hs y (List.mem_cons_of_mem _ (List.mem_cons_self _ _))
        rw [← hx]
        intro hyn
        rw [hyn] at hy
        exact absurd hy (by decide)
    · exact Or.inl hc

/-- Executable cleanness check used for the concrete header segments. -/
def cleanForB (pat : Str) : Str → Bool
  | [] => true
  | c :: t =>
    !((pat.isPrefixOf (c :: t)) || ((c :: t).isPrefixOf pat)) && cleanForB pat t

theorem prefixOf_append_cases (pat u v : Str)
    (h : pat.isPrefixOf (u ++ v) = true) :
    pat.isPrefixOf u = true ∨ u.isPrefixOf pat = true := by
  obtain ⟨b, hb⟩ := (isPrefixOf_iff _ _).mp h
  rcases List.append_eq_append_iff.mp hb.symm with ⟨a', ha1, _⟩ | ⟨c', hc1, _⟩
  · exact Or.inl ((isPrefixOf_iff _ _).mpr ⟨a', ha1⟩)
  · exact Or.inr ((isPrefixOf_iff _ _).mpr ⟨c', hc1⟩)

theorem cleanForB_sound (pat a : Str) (h : cleanForB pat a = true) :
    CleanFor pat a := by
  induction a with
  | nil => exact cleanFor_nil _
  | cons c t ih =>
    simp only [cleanForB, Bool.and_eq_true, Bool.not_eq_true', Bool.or_eq_false_iff] at h
    refine cleanFor_cons _ _ _ (fun rest => ?_) (ih h.2)
    intro hcon
    rcases prefixOf_append_cases pat (c :: t) rest hcon with h1 | h1
    · rw [h1] at h
      exact Bool.noConfusion h.1.1
    · rw [h1] at h
      exact Bool.noConfusion h.1.2

theorem splitOnSublist_hit (pat rest : Str) (hp : pat ≠ []) :
    splitOnSublist pat (pat ++ rest) = some ([], rest) := by
  cases pat with
  | nil => exact absurd rfl hp
  | cons p pp =>
    rw [List.cons_append]
    rw [show splitOnSublist (p :: pp) (p :: (pp ++ rest)) =
        (if (p :: pp).isPrefixOf (p :: (pp ++ rest)) then
          some ([], (p :: (pp ++ rest)).drop (p :: pp).length)
        else match splitOnSublist (p :: pp) (pp ++ rest) with
          | some (pre, post) => some (p :: pre, post)
          | none => none) from by rw [splitOnSublist]]
    rw [if_pos ((isPrefixOf_iff _ _).mpr ⟨rest, by simp⟩)]
    rw [show (p :: (pp ++ rest)) = (p :: pp) ++ rest from by simp]
    rw [List.drop_left]

/-- A well-formed mapping table: every code is a non-empty hex string. -/
def ValidTable (T : List (Str × Str)) : Prop :=
  ∀ e ∈ T, e.1 ≠ [] ∧ (∀ c ∈ e.1, isHexChar c = true) ∧
    e.2 ≠ [] ∧ (∀ c ∈ e.2, isHexChar c = true)

theorem joinLines_cons (l : Str) (ls : List Str) (h : ls ≠ []) :
    joinLines (l :: ls) = l ++ '\n' :: joinLines ls := by
  cases ls with
  | nil => exact absurd rfl h
  | cons l' ls' => rfl

theorem joinLines_append (xs ys : List Str) (hx : xs ≠ []) (hy : ys ≠ []) :
    joinLines (xs ++ ys) = joinLines xs ++ '\n' :: joinLines ys := by
  induction xs with
  | nil => exact absurd rfl hx
  | cons x xs' ih =>
    cases xs' with
    | nil =>
      rw [List.cons_append, List.nil_append, joinLines_cons _ _ hy]
      rfl
    | cons x2 xs'' =>
      rw [List.cons_append, joinLines_cons _ _ (by simp),
        joinLines_cons _ _ (by simp), ih (by simp)]
      simp

theorem buildEntryLines_ne_nil (n i : Nat) (e : Str × Str) (rest : List (Str × Str)) :
    buildEntryLines n i (e :: rest) ≠ [] := by
  unfold buildEntryLines
  split <;> simp

/-- The structural form of the built text. -/
theorem build_cmap_shape (T : List (Str × Str)) :
    build_cmap T =
      (cmapHeaderFixed ++
        (List.replicate (2 * (((T.map (fun e => e.1.length)).foldl max 0) / 2)) '0' ++
          ("> <".data ++
            (List.replicate (2 * (((T.map (fun e => e.1.length)).foldl max 0) / 2)) 'F' ++
              (">\nendcodespacerange".data ++
                ('\n' :: (natStr (min 100 T.length) ++ [' ']))))))) ++
      (bfcharPat ++
        ('\n' :: joinLines (buildEntryLines T.length 0 T ++ cmapFooterLines))) := by
  unfold build_cmap build_cmap_lines
  rw [joinLines_cons _ _ (by simp), joinLines_cons _ _ (by simp [cmapFooterLines])]
  simp [List.append_assoc]

-- clean facts for the first search (pattern `beginbfchar`)
theorem bfcharPat_cons : bfcharPat = 'b' :: "eginbfchar".data := by decide

theorem cleanB_header : CleanFor bfcharPat cmapHeaderFixed :=
  cleanForB_sound _ _ (by decide)

theorem cleanB_zeros (k : Nat) : CleanFor bfcharPat (List.replicate k '0') := by
  rw [bfcharPat_cons]
  exact cleanFor_no_head _ _ _ (by
    intro c hc
    rw [List.eq_of_mem_replicate hc]
    decide)

theorem cleanB_Fs (k : Nat) : CleanFor bfcharPat (List.replicate k 'F') := by
  rw [bfcharPat_cons]
  exact cleanFor_no_head _ _ _ (by
    intro c hc
    rw [List.eq_of_mem_replicate hc]
    decide)

theorem cleanB_gtlt : CleanFor bfcharPat "> <".data :=
  cleanForB_sound _ _ (by decide)

theorem cleanB_endcs : CleanFor bfcharPat ">\nendcodespacerange".data :=
  cleanForB_sound _ _ (by decide)

theorem cleanB_lf : CleanFor bfcharPat ['\n'] :=
  cleanForB_sound _ _ (by decide)

theorem cleanB_spc : CleanFor bfcharPat [' '] :=
  cleanForB_sound _ _ (by decide)

theorem cleanB_natStr (k : Nat) : CleanFor bfcharPat (natStr k) := by
  rw [bfcharPat_cons]
  refine cleanFor_no_head _ _ _ (fun c hc => ?_)
  obtain ⟨d, _, rfl⟩ := natStr_chars k c hc
  exact digitChar_ne_b d

/-- The first `beginbfchar` of the built text is the one of the first
count line. -/
theorem split_bfchar (T : List (Str × Str)) :
    splitOnSublist bfcharPat (build_cmap T) =
      some ((cmapHeaderFixed ++
        (List.replicate (2 * (((T.map (fun e => e.1.length)).foldl max 0) / 2)) '0' ++
          ("> <".data ++
            (List.replicate (2 * (((T.map (fun e => e.1.length)).foldl max 0) / 2)) 'F' ++
              (">\nendcodespacerange".data ++
                ('\n' :: (natStr (min 100 T.length) ++ [' ']))))))),
        '\n' :: joinLines (buildEntryLines T.length 0 T ++ cmapFooterLines)) := by
  rw [build_cmap_shape]
  have hclean : CleanFor bfcharPat
      (cmapHeaderFixed ++
        (List.replicate (2 * (((T.map (fun e => e.1.length)).foldl max 0) / 2)) '0' ++
          ("> <".data ++
            (List.replicate (2 * (((T.map (fun e => e.1.length)).foldl max 0) / 2)) 'F' ++
              (">\nendcodespacerange".data ++
                ('\n' :: (natStr (min 100 T.length) ++ [' ']))))))) := by
    refine cleanFor_append _ _ _ cleanB_header (cleanFor_append _ _ _ (cleanB_zeros _)
      (cleanFor_append _ _ _ cleanB_gtlt (cleanFor_append _ _ _ (cleanB_Fs _)
        (cleanFor_append _ _ _ cleanB_endcs ?_))))
    rw [show ('\n' :: (natStr (min 100 T.length) ++ [' '])) =
      ['\n'] ++ (natStr (min 100 T.length) ++ [' ']) from rfl]
    exact cleanFor_append _ _ _ cleanB_lf
      (cleanFor_append _ _ _ (cleanB_natStr _) cleanB_spc)
  rw [hclean, splitOnSublist_hit _ _ (by decide)]
  simp

-- clean facts for the second search (pattern `endcmap`)
theorem endcmapPat_cons : endcmapPat = 'e' :: "ndcmap".data := by decide

theorem cleanE_lf : CleanFor endcmapPat ['\n'] :=
  cleanForB_sound _ _ (by decide)

theorem cleanE_lt : CleanFor endcmapPat ['<'] :=
  cleanForB_sound _ _ (by decide)

theorem cleanE_spc_lt : CleanFor endcmapPat [' ', '<'] :=
  cleanForB_sound _ _ (by decide)

theorem cleanE_endbfchar : CleanFor endcmapPat "endbfchar".data :=
  cleanForB_sound _ _ (by decide)

theorem cleanE_spc_bfchar : CleanFor endcmapPat (' ' :: bfcharPat) :=
  cleanForB_sound _ _ (by decide)

theorem cleanE_natStr (k : Nat) : CleanFor endcmapPat (natStr k) := by
  rw [endcmapPat_cons]
  refine cleanFor_no_head _ _ _ (fun c hc => ?_)
  obtain ⟨d, _, rfl⟩ := natStr_chars k c hc
  exact digitChar_ne_e d

theorem cleanE_entryLine (e : Str × Str)
    (h1 : ∀ c ∈ e.1, isHexChar c = true) (h2 : ∀ c ∈ e.2, isHexChar c = true) :
    CleanFor endcmapPat (entryLine e) := by
  have hshape : entryLine e =
      ['<'] ++ ((e.1 ++ ['>']) ++ ([' ', '<'] ++ (e.2 ++ ['>']))) := by
    simp [entryLine]
  rw [hshape]
  exact cleanFor_append _ _ _ cleanE_lt (cleanFor_append _ _ _
    (cleanFor_hex_close _ h1) (cleanFor_append _ _ _ cleanE_spc_lt
      (cleanFor_hex_close _ h2)))

/-- The whole entry region is clean for `endcmap`. -/
theorem cleanE_entryRegion (n : Nat) (T : List (Str × Str)) (hT : ValidTable T) :
    ∀ i, CleanFor endcmapPat (joinLines (buildEntryLines n i T)) := by
  induction T with
  | nil => intro i; exact cleanFor_nil _
  | cons e rest ih =>
    intro i
    have he := hT e (List.mem_cons_self _ _)
    have hrest : ValidTable rest := fun x hx => hT x (List.mem_cons_of_mem _ hx)
    have hentry : CleanFor endcmapPat (entryLine e) :=
      cleanE_entryLine e he.2.1 he.2.2.2
    have hsep : CleanFor endcmapPat
        ("endbfchar".data ++ ('\n' :: (natStr (min 100 (n - i)) ++ (' ' :: bfcharPat)))) := by
      refine cleanFor_append _ _ _ cleanE_endbfchar ?_
      rw [show ('\n' :: (natStr (min 100 (n - i)) ++ (' ' :: bfcharPat))) =
        ['\n'] ++ (natStr (min 100 (n - i)) ++ (' ' :: bfcharPat)) from rfl]
      exact cleanFor_append _ _ _ cleanE_lf
        (cleanFor_append _ _ _ (cleanE_natStr _) cleanE_spc_bfchar)
    unfold buildEntryLines
    split
    · -- a separator block precedes the entry line
      cases rest with
      | nil =>
        rw [show buildEntryLines n (i + 1) [] = [] from rfl]
        simp only [List.cons_append, List.nil_append]
        rw [joinLines_cons _ _ (by simp), joinLines_cons _ _ (by simp)]
        refine cleanFor_append _ _ _ cleanE_endbfchar ?_
        rw [show ('\n' :: ((natStr (min 100 (n - i)) ++ ' ' :: bfcharPat) ++
            '\n' :: joinLines [entryLine e])) =
          ['\n'] ++ ((natStr (min 100 (n - i)) ++ (' ' :: bfcharPat)) ++
            (['\n'] ++ entryLine e)) from by simp [joinLines]
        ]
        exact cleanFor_append _ _ _ cleanE_lf (cleanFor_append _ _ _
          (cleanFor_append _ _ _ (cleanE_natStr _) cleanE_spc_bfchar)
          (cleanFor_append _ _ _ cleanE_lf hentry))
      | cons r rs =>
        simp only [List.cons_append, List.nil_append]
        rw [joinLines_cons _ _ (by simp), joinLines_cons _ _ (by simp),
          joinLines_cons _ _ (buildEntryLines_ne_nil n (i + 1) r rs)]
        refine cleanFor_append _ _ _ cleanE_endbfchar ?_
        rw [show ('\n' :: ((natStr (min 100 (n - i)) ++ ' ' :: bfcharPat) ++
            '\n' :: (entryLine e ++
              '\n' :: joinLines (buildEntryLines n (i + 1) (r :: rs))))) =
          ['\n'] ++ ((natStr (min 100 (n - i)) ++ (' ' :: bfcharPat)) ++
            (['\n'] ++ (entryLine e ++
              (['\n'] ++ joinLines (buildEntryLines n (i + 1) (r :: rs)))))) from by simp]
        exact cleanFor_append _ _ _ cleanE_lf (cleanFor_append _ _ _
          (cleanFor_append _ _ _ (cleanE_natStr _) cleanE_spc_bfchar)
          (cleanFor_append _ _ _ cleanE_lf (cleanFor_append _ _ _ hentry
            (cleanFor_append _ _ _ cleanE_lf (ih hrest (i + 1))))))
    · -- no separator
      cases rest with
      | nil =>
        rw [show buildEntryLines n (i + 1) [] = [] from rfl]
        rw [List.nil_append]
        exact hentry
      | cons r rs =>
        rw [List.nil_append,
          joinLines_cons _ _ (buildEntryLines_ne_nil n (i + 1) r rs)]
        rw [show (entryLine e ++ '\n' :: joinLines (buildEntryLines n (i + 1) (r :: rs))) =
          entryLine e ++ (['\n'] ++ joinLines (buildEntryLines n (i + 1) (r :: rs)))
          from by simp]
        exact cleanFor_append _ _ _ hentry
          (cleanFor_append _ _ _ cleanE_lf (ih hrest (i + 1)))

/-- The first `endcmap` after the entry region is the footer's. -/
theorem split_endcmap (T : List (Str × Str)) (hT : ValidTable T) (hne : T ≠ []) :
    ∃ rest, splitOnSublist endcmapPat
      ('\n' :: joinLines (buildEntryLines T.length 0 T ++ cmapFooterLines)) =
    some ('\n' :: (joinLines (buildEntryLines T.length 0 T) ++
      ('\n' :: ("endbfchar".data ++ ['\n']))), rest) := by
  have hEL : buildEntryLines T.length 0 T ≠ [] := by
    cases T with
    | nil => exact absurd rfl hne
    | cons e rest => exact buildEntryLines_ne_nil _ _ _ _
  rw [joinLines_append _ _ hEL (by simp [cmapFooterLines])]
  rw [show joinLines cmapFooterLines = "endbfchar".data ++ ('\n' ::
    ("endcmap".data ++ ('\n' :: joinLines
      ["CMapName currentdict /CMap defineresource pop".data,
       "end".data, "end".data, "%%EndResource".data, "%%EOF".data]))) from by
    rw [show cmapFooterLines = "endbfchar".data :: "endcmap".data ::
      ["CMapName currentdict /CMap defineresource pop".data,
       "end".data, "end".data, "%%EndResource".data, "%%EOF".data] from rfl]
    rw [joinLines_cons _ _ (by simp), joinLines_cons _ _ (by simp)]]
  refine ⟨'\n' :: joinLines
      ["CMapName currentdict /CMap defineresource pop".data,
       "end".data, "end".data, "%%EndResource".data, "%%EOF".data], ?_⟩
  have hshape : ('\n' :: (joinLines (buildEntryLines T.length 0 T) ++
      '\n' :: ("endbfchar".data ++ ('\n' :: ("endcmap".data ++ ('\n' :: joinLines
        ["CMapName currentdict /CMap defineresource pop".data,
         "end".data, "end".data, "%%EndResource".data, "%%EOF".data])))))) =
      (['\n'] ++ (joinLines (buildEntryLines T.length 0 T) ++
        (['\n'] ++ ("endbfchar".data ++ ['\n'])))) ++
      ("endcmap".data ++ ('\n' :: joinLines
        ["CMapName currentdict /CMap defineresource pop".data,
         "end".data, "end".data, "%%EndResource".data, "%%EOF".data])) := by
    simp
  rw [hshape]
  have hclean : CleanFor endcmapPat
      (['\n'] ++ (joinLines (buildEntryLines T.length 0 T) ++
        (['\n'] ++ ("endbfchar".data ++ ['\n'])))) :=
    cleanFor_append _ _ _ cleanE_lf (cleanFor_append _ _ _
      (cleanE_entryRegion T.length T hT 0) (cleanFor_append _ _ _ cleanE_lf
        (cleanFor_append _ _ _ cleanE_endbfchar cleanE_lf)))
  rw [show ("endcmap".data : Str) = endcmapPat from rfl] at *
  rw [hclean, splitOnSublist_hit _ _ (by decide)]
  simp

/-- The entry region starts with the `<` of the first entry line. -/
theorem joinLines_entry_head (n : Nat) (T : List (Str × Str)) (hne : T ≠ []) :
    ∃ t, joinLines (buildEntryLines n 0 T) = '<' :: t := by
  cases T with
  | nil => exact absurd rfl hne
  | cons e rest =>
    rw [show buildEntryLines n 0 (e :: rest) =
      entryLine e :: buildEntryLines n 1 rest from by
        rw [buildEntryLines, if_neg (by simp)]
        simp]
    cases hb : buildEntryLines n 1 rest with
    | nil =>
      exact ⟨e.1 ++ ('>' :: ' ' :: '<' :: (e.2 ++ ['>'])), by simp [joinLines, entryLine]⟩
    | cons l ls =>
      rw [joinLines_cons _ _ (by simp)]
      exact ⟨e.1 ++ ('>' :: ' ' :: '<' :: (e.2 ++ ['>'])) ++
        ('\n' :: joinLines (l :: ls)), by simp [entryLine]⟩

/-- The regex group stripping on the extracted block. -/
theorem stripWs_content (A : Str) (hA : ∃ t, A = '<' :: t) :
    stripWs ('\n' :: (A ++ ('\n' :: ("endbfchar".data ++ ['\n'])))) =
    A ++ ('\n' :: "endbfchar".data) := by
  obtain ⟨t, rfl⟩ := hA
  unfold stripWs
  rw [show (('\n' :: (('<' :: t) ++ ('\n' :: ("endbfchar".data ++ ['\n'])))).dropWhile
      pySpace) = ('<' :: t) ++ ('\n' :: ("endbfchar".data ++ ['\n'])) from by
    rw [List.dropWhile_cons_of_pos (by decide), List.cons_append,
      List.dropWhile_cons_of_neg (by decide)]]
  rw [show (('<' :: t) ++ ('\n' :: ("endbfchar".data ++ ['\n']))).reverse =
    '\n' :: ("endbfchar".data.reverse ++ ('\n' :: ('<' :: t).reverse)) from by simp]
  rw [List.dropWhile_cons_of_pos (by decide)]
  rw [show ("endbfchar".data.reverse ++ ('\n' :: ('<' :: t).reverse)).dropWhile pySpace
      = "endbfchar".data.reverse ++ ('\n' :: ('<' :: t).reverse) from by
    rw [show ("endbfchar".data.reverse : Str) = 'r' :: "ahcfbdne".data from by decide]
    rw [List.cons_append, List.dropWhile_cons_of_neg (by decide)]]
  simp

theorem entry_append_shape (e : Str × Str) (Z : Str) :
    entryLine e ++ Z =
      '<' :: (e.1 ++ ('>' :: ' ' :: '<' :: (e.2 ++ ('>' :: Z)))) := by
  simp [entryLine]


theorem sep_junk_free (k : Nat) :
    ∀ c ∈ ("endbfchar".data ++ ('\n' :: (natStr k ++ (' ' :: bfcharPat ++ ['\n'])))),
      c ≠ '<' := by
  intro c hc
  rcases List.mem_append.mp hc with h1 | h2
  · exact (by decide : ∀ x ∈ "endbfchar".data, x ≠ '<') c h1
  · rcases List.mem_cons.mp h2 with rfl | h3
    · decide
    · rcases List.mem_append.mp h3 with h4 | h5
      · obtain ⟨d, _, rfl⟩ := natStr_chars k c h4
        exact digitChar_ne_lt d
      · exact (by decide : ∀ x ∈ (' ' :: bfcharPat ++ ['\n'] : Str), x ≠ '<') c h5

/-- Scanning the joined entry lines followed by angle-free junk recovers
exactly the table. -/
theorem findPairs_entryRegion (n : Nat) (T : List (Str × Str)) (hT : ValidTable T)
    (J : Str) (hJ : ∀ c ∈ J, c ≠ '<') :
    ∀ i, findPairs (joinLines (buildEntryLines n i T) ++ J) = T := by
  induction T with
  | nil =>
    intro i
    rw [show buildEntryLines n i [] = [] from rfl]
    exact findPairs_junk_nil _ hJ
  | cons e rest ih =>
    intro i
    have he := hT e (List.mem_cons_self _ _)
    have hrest : ValidTable rest := fun x hx => hT x (List.mem_cons_of_mem _ hx)
    have hcont : findPairs (joinLines (entryLine e ::
        buildEntryLines n (i + 1) rest) ++ J) = e :: rest := by
      cases hbl : buildEntryLines n (i + 1) rest with
      | nil =>
        have hrestnil : rest = [] := by
          cases rest with
          | nil => rfl
          | cons r rs => exact absurd hbl (buildEntryLines_ne_nil n (i + 1) r rs)
        rw [show joinLines [entryLine e] = entryLine e from rfl,
          entry_append_shape, findPairs_entry _ _ _ he.1 he.2.1 he.2.2.1 he.2.2.2,
          findPairs_junk_nil _ hJ, hrestnil]
      | cons l ls =>
        rw [joinLines_cons _ _ (by simp),
          show ((entryLine e ++ '\n' :: joinLines (l :: ls)) ++ J) =
            entryLine e ++ ('\n' :: (joinLines (l :: ls) ++ J)) from by simp,
          entry_append_shape, findPairs_entry _ _ _ he.1 he.2.1 he.2.2.1 he.2.2.2,
          findPairs_skip _ _ (by decide), ← hbl, ih hrest (i + 1)]
    rw [buildEntryLines]
    by_cases hcond : i ≠ 0 ∧ i % 100 = 0 ∧ i ≠ n - 1
    · rw [if_pos hcond]
      rw [show ((["endbfchar".data, natStr (min 100 (n - i)) ++ ' ' :: bfcharPat] ++
          entryLine e :: buildEntryLines n (i + 1) rest : List Str)) =
        "endbfchar".data :: (natStr (min 100 (n - i)) ++ ' ' :: bfcharPat) ::
          entryLine e :: buildEntryLines n (i + 1) rest from by simp]
      rw [joinLines_cons _ _ (by simp), joinLines_cons _ _ (by simp)]
      rw [show (("endbfchar".data ++ '\n' ::
          ((natStr (min 100 (n - i)) ++ ' ' :: bfcharPat) ++ '\n' ::
            joinLines (entryLine e :: buildEntryLines n (i + 1) rest))) ++ J) =
        ("endbfchar".data ++ ('\n' :: (natStr (min 100 (n - i)) ++
          (' ' :: bfcharPat ++ ['\n'])))) ++
          (joinLines (entryLine e :: buildEntryLines n (i + 1) rest) ++ J) from by simp]
      rw [findPairs_skip_junk _ _ (sep_junk_free _), hcont]
    · rw [if_neg hcond, List.nil_append, hcont]

theorem isHexChar_lt (c : Char) (h : isHexChar c = true) : c.toNat < 128 := by
  unfold isHexChar at h
  simp only [Bool.or_eq_true, Bool.and_eq_true, decide_eq_true_eq] at h
  obtain (⟨h1, h2⟩ | ⟨h1, h2⟩) | ⟨h1, h2⟩ := h
  · have h3 : c.toNat ≤ ('9' : Char).toNat := h2
    have h4 : ('9' : Char).toNat = 57 := by decide
    omega
  · have h3 : c.toNat ≤ ('F' : Char).toNat := h2
    have h4 : ('F' : Char).toNat = 70 := by decide
    omega
  · have h3 : c.toNat ≤ ('f' : Char).toNat := h2
    have h4 : ('f' : Char).toNat = 102 := by decide
    omega

theorem mem_joinLines (L : List Str) : ∀ c ∈ joinLines L, c = '\n' ∨ ∃ l ∈ L, c ∈ l := by
  induction L with
  | nil => intro c hc; simp [joinLines] at hc
  | cons l ls ih =>
    cases ls with
    | nil =>
      intro c hc
      exact Or.inr ⟨l, List.mem_cons_self _ _, hc⟩
    | cons l2 ls2 =>
      intro c hc
      rw [joinLines_cons _ _ (by simp)] at hc
      rcases List.mem_append.mp hc with h | h
      · exact Or.inr ⟨l, List.mem_cons_self _ _, h⟩
      · rcases List.mem_cons.mp h with rfl | h
        · exact Or.inl rfl
        · rcases ih c h with h | ⟨l', hl', hc'⟩
          · exact Or.inl h
          · exact Or.inr ⟨l', List.mem_cons_of_mem _ hl', hc'⟩

theorem mem_buildEntryLines (n : Nat) (T : List (Str × Str)) :
    ∀ i, ∀ l ∈ buildEntryLines n i T,
      l = "endbfchar".data ∨ (∃ k, l = natStr k ++ ' ' :: bfcharPat) ∨
        ∃ e ∈ T, l = entryLine e := by
  induction T with
  | nil => intro i l hl; simp [buildEntryLines] at hl
  | cons e rest ih =>
    intro i l hl
    rw [buildEntryLines] at hl
    by_cases hcond : i ≠ 0 ∧ i % 100 = 0 ∧ i ≠ n - 1
    · rw [if_pos hcond] at hl
      rcases List.mem_append.mp hl with h | h
      · rcases List.mem_cons.mp h with rfl | h
        · exact Or.inl rfl
        · rcases List.mem_cons.mp h with rfl | h
          · exact Or.inr (Or.inl ⟨_, rfl⟩)
          · simp at h
      · rcases List.mem_cons.mp h with rfl | h
        · exact Or.inr (Or.inr ⟨e, List.mem_cons_self _ _, rfl⟩)
        · rcases ih (i + 1) l h with h | h | ⟨e', he', hl'⟩
          · exact Or.inl h
          · exact Or.inr (Or.inl h)
          · exact Or.inr (Or.inr ⟨e', List.mem_cons_of_mem _ he', hl'⟩)
    · rw [if_neg hcond, List.nil_append] at hl
      rcases List.mem_cons.mp hl with rfl | h
      · exact Or.inr (Or.inr ⟨e, List.mem_cons_self _ _, rfl⟩)
      · rcases ih (i + 1) l h with h | h | ⟨e', he', hl'⟩
        · exact Or.inl h
        · exact Or.inr (Or.inl h)
        · exact Or.inr (Or.inr ⟨e', List.mem_cons_of_mem _ he', hl'⟩)

theorem countLine_ascii (k : Nat) :
    ∀ c ∈ natStr k ++ ' ' :: bfcharPat, c.toNat < 128 := by
  intro c hc
  rcases List.mem_append.mp hc with h | h
  · obtain ⟨d, _, rfl⟩ := natStr_chars k c h
    exact digitChar_lt d
  · exact (by decide : ∀ x ∈ (' ' :: bfcharPat : Str), x.toNat < 128) c h

theorem entryLine_ascii (e : Str × Str)
    (h1 : ∀ c ∈ e.1, isHexChar c = true) (h2 : ∀ c ∈ e.2, isHexChar c = true) :
    ∀ c ∈ entryLine e, c.toNat < 128 := by
  intro c hc
  rw [entryLine] at hc
  rcases List.mem_append.mp hc with hc | hc
  · rcases List.mem_cons.mp hc with rfl | hc
    · decide
    · rcases List.mem_append.mp hc with hc | hc
      · exact isHexChar_lt c (h1 c hc)
      · rcases List.mem_cons.mp hc with rfl | hc
        · decide
        · rcases List.mem_cons.mp hc with rfl | hc
          · decide
          · rcases List.mem_cons.mp hc with rfl | hc
            · decide
            · exact isHexChar_lt c (h2 c hc)
  · rcases List.mem_cons.mp hc with rfl | hc
    · decide
    · simp at hc

set_option maxRecDepth 200000 in
theorem build_cmap_ascii (T : List (Str × Str)) (hT : ValidTable T) :
    ∀ c ∈ build_cmap T, c.toNat < 128 := by
  intro c hc
  rw [build_cmap_shape] at hc
  rcases List.mem_append.mp hc with hc | hc
  · rcases List.mem_append.mp hc with hc | hc
    · exact (by decide : ∀ x ∈ cmapHeaderFixed, x.toNat < 128) c hc
    · rcases List.mem_append.mp hc with hc | hc
      · rw [List.eq_of_mem_replicate hc]; decide
      · rcases List.mem_append.mp hc with hc | hc
        · exact (by decide : ∀ x ∈ ("> <".data : Str), x.toNat < 128) c hc
        · rcases List.mem_append.mp hc with hc | hc
          · rw [List.eq_of_mem_replicate hc]; decide
          · rcases List.mem_append.mp hc with hc | hc
            · exact (by decide : ∀ x ∈ (">\nendcodespacerange".data : Str),
                x.toNat < 128) c hc
            · rcases List.mem_cons.mp hc with rfl | hc
              · decide
              · rcases List.mem_append.mp hc with hc | hc
                · obtain ⟨d, _, rfl⟩ := natStr_chars _ c hc
                  exact digitChar_lt d
                · rcases List.mem_cons.mp hc with rfl | hc
                  · decide
                  · simp at hc
  · rcases List.mem_append.mp hc with hc | hc
    · exact (by decide : ∀ x ∈ bfcharPat, x.toNat < 128) c hc
    · rcases List.mem_cons.mp hc with rfl | hc
      · decide
      · rcases mem_joinLines _ c hc with rfl | ⟨l, hl, hcl⟩
        · decide
        · rcases List.mem_append.mp hl with hl | hl
          · rcases mem_buildEntryLines T.length T 0 l hl with rfl | ⟨k, rfl⟩ | ⟨e, he, rfl⟩
            · exact (by decide : ∀ x ∈ ("endbfchar".data : Str), x.toNat < 128) c hcl
            · exact countLine_ascii k c hcl
            · exact entryLine_ascii e (hT e he).2.1 (hT e he).2.2.2 c hcl
          · exact (by decide :
              ∀ y ∈ cmapFooterLines, ∀ x ∈ y, x.toNat < 128) l hl c hcl

/-- C3: for every non-empty mapping table with unique hex source codes
(and hex destination codes, as all tables the program builds have),
decoding the encoding returns exactly the same (source, destination)
pairs in the same order: `parse_cmap (build_cmap T) = T`. -/
theorem c3_roundtrip (T : List (Str × Str)) (hne : T ≠ []) (hT : ValidTable T)
    (hnodup : (T.map Prod.fst).Nodup) :
    parse_cmap (encodeUtf8 (build_cmap T)) = T := by
  obtain ⟨rest, hsplit2⟩ := split_endcmap T hT hne
  obtain ⟨t, hhead⟩ := joinLines_entry_head T.length T hne
  unfold parse_cmap
  rw [decodeUtf8_encode_ascii _ (build_cmap_ascii T hT)]
  unfold parseCmapChars
  rw [split_bfchar T]
  dsimp only
  rw [hsplit2]
  dsimp only
  rw [stripWs_content _ ⟨t, hhead⟩]
  exact findPairs_entryRegion T.length T hT ('\n' :: "endbfchar".data) (by decide) 0

set_option maxRecDepth 200000 in
theorem c3_witness :
    parse_cmap (encodeUtf8 (build_cmap
      [("0000".data, "0041".data), ("0001".data, "0042".data)])) =
      [("0000".data, "0041".data), ("0001".data, "0042".data)] :=
  c3_roundtrip _ (by decide) (by unfold ValidTable; decide) (by decide)
